import Mathlib

/-!
Verification development for the trade-journal analytics core
(`src/utils/calculations.ts` of the zerodha-fno-trade-journal repository).

Modelling conventions (shallow embedding of the TypeScript source):
* Every JavaScript `number` is modelled as an exact rational (`Rat`); JS
  floating-point arithmetic on the small integer/decimal values involved is
  exact for the algebraic facts proved here.
* `Date` timestamps (`orderExecutionTime`) are integers (milliseconds).
  Calendar dates (`tradeDate`, `expiryDate`, day buckets) are integer day
  indices: `startOfDay` is the identity on them and
  `format(d, 'yyyy-MM-dd')` is the day index itself (both are injective
  day-identifiers, which is all the source uses them for).
* `Math.random()` is modelled by an explicit stream `rnd : Nat → String`
  consumed at each position creation (argument: number of positions created
  so far); a run of the pipeline corresponds to a choice of `rnd`.
* JS `Map` objects (keyed by instrument key or date key) are modelled as
  insertion-ordered lists; `map.get(k)` followed by mutation becomes an
  update of the (unique) matching entry.
* The source keeps, per instrument key, a list of currently-open positions
  which aliases the global position ledger and is pruned to
  `remainingQuantity > 0` after every order; that per-key open list always
  equals the ledger filtered to the key with `remainingQuantity > 0`, in the
  same (creation) order, so the matching loop is modelled as a single walk
  over the ledger guarded by exactly the source's eligibility conditions.
-/

set_option maxHeartbeats 1000000
set_option maxRecDepth 8000

namespace TradeJournal

/-- Instrument classification of a derivative fill: call option, put option,
or future (the TypeScript union `'CE' | 'PE' | 'FUT'`). -/
inductive InstrumentType where
  | CE
  | PE
  | FUT
deriving DecidableEq, Repr

/-- Trade side (the TypeScript union `'buy' | 'sell'`). -/
inductive TradeType where
  | buy
  | sell
deriving DecidableEq, Repr

/-- Scalar fields of a `Trade` record (`types/trade.ts`). Fields the
analytics core never reads (id, isin, segment, series, auction, tradeId,
underlyingSymbol) are omitted. -/
structure TradeData where
  symbol : String
  tradeDate : Int
  exchange : String
  tradeType : TradeType
  quantity : Rat
  price : Rat
  value : Rat
  orderId : String
  orderExecutionTime : Int
  expiryDate : Int
  instrumentType : InstrumentType
  strikePrice : Option Rat
deriving DecidableEq, Repr

/-- A `Trade` as consumed by the analytics module: scalar fields plus the
ordered list of member executions (`trades`). The source reuses `Trade`
recursively for the members; the core only reads the members' scalar fields
and the length of the member list, so members are modelled as `TradeData`. -/
structure Trade extends TradeData where
  trades : List TradeData
deriving DecidableEq, Repr

/-- `mergeTradesByOrderId`, accumulation step: a JS `Map` keyed by
`trade.orderId` in insertion order; the first trade for an order id seeds the
merged record (spreading all its fields) with `trades := [trade]`, later
trades are pushed and their quantity and value accumulated. -/
def mergeStep (acc : List Trade) (t : Trade) : List Trade :=
  if acc.any (fun m => m.orderId == t.orderId) then
    acc.map (fun m =>
      if m.orderId = t.orderId then
        { m with trades := m.trades ++ [t.toTradeData],
                 quantity := m.quantity + t.quantity,
                 value := m.value + t.value }
      else m)
  else
    acc ++ [{ t with trades := [t.toTradeData] }]

/-- `mergeTradesByOrderId` (calculations.ts lines 187–217): group executions
by order id, sum quantity and value, then recompute the average price
`value / quantity` only when the merged quantity is positive. -/
def mergeTradesByOrderId (trades : List Trade) : List Trade :=
  (trades.foldl mergeStep []).map
    (fun m => if 0 < m.quantity then { m with price := m.value / m.quantity } else m)

/-- Breakdown of regulatory/brokerage charges for one order. -/
structure BrokerageCharges where
  brokerage : Rat
  stt : Rat
  transactionCharges : Rat
  sebiCharges : Rat
  stampCharges : Rat
  gst : Rat
  totalCharges : Rat
deriving DecidableEq, Repr

/-- `calculateBrokerageCharges` (calculations.ts lines 220–293): the India
F&O fee schedule. The TypeScript instrument-type union has exactly the three
constructors modelled here, so the implicit zero default for other types is
unreachable. -/
def calculateBrokerageCharges (t : Trade) (exchange : String) : BrokerageCharges :=
  let brokerage : Rat :=
    match t.instrumentType with
    | .FUT => min (t.value * 0.0003) 20
    | .CE | .PE => 20
  let stt : Rat :=
    match t.instrumentType, t.tradeType with
    | .FUT, .sell => t.value * 0.0002
    | .CE, .sell | .PE, .sell => t.value * 0.001
    | _, _ => 0
  let transactionCharges : Rat :=
    match t.instrumentType with
    | .FUT => if exchange = "NSE" then t.value * 0.0000173 else 0
    | .CE | .PE => if exchange = "NSE" then t.value * 0.0003503 else t.value * 0.000325
  let sebiCharges : Rat := t.value / 10000000 * 10
  let stampCharges : Rat :=
    match t.tradeType, t.instrumentType with
    | .buy, .FUT => min (t.value * 0.00002) (t.value / 10000000 * 200)
    | .buy, .CE | .buy, .PE => min (t.value * 0.00003) (t.value / 10000000 * 300)
    | _, _ => 0
  let gst : Rat := (brokerage + sebiCharges + transactionCharges) * 0.18
  { brokerage := brokerage
    stt := stt
    transactionCharges := transactionCharges
    sebiCharges := sebiCharges
    stampCharges := stampCharges
    gst := gst
    totalCharges := brokerage + stt + transactionCharges + sebiCharges + stampCharges + gst }

/-- Position status (the TypeScript union `'open' | 'closed'`). -/
inductive PositionStatus where
  | «open»
  | closed
deriving DecidableEq, Repr

/-- An `EnhancedPosition` record (calculations.ts lines 296–304 extending
`Position` of types/trade.ts): one matched inventory lot. -/
structure Position where
  positionId : String
  symbol : String
  instrumentType : InstrumentType
  strikePrice : Option Rat
  expiryDate : Int
  netQuantity : Rat
  avgBuyPrice : Rat
  avgSellPrice : Rat
  totalBuyValue : Rat
  totalSellValue : Rat
  realizedPnL : Rat
  unrealizedPnL : Rat
  status : PositionStatus
  trades : List Trade
  openTime : Int
  closeTime : Option Int
  entryPrice : Rat
  exitPrice : Option Rat
  maxQuantity : Rat
  remainingQuantity : Rat
deriving DecidableEq, Repr

/-- String form of an instrument type, as interpolated into the key. -/
def InstrumentType.str : InstrumentType → String
  | .CE => "CE"
  | .PE => "PE"
  | .FUT => "FUT"

/-- The instrument key of a trade:
`` `${symbol}_${instrumentType}_${strikePrice || 0}_${format(expiryDate, 'yyyy-MM-dd')}` ``
(calculations.ts line 316). A JS falsy strike (undefined or 0) renders as `0`. -/
def instrumentKeyOfTrade (t : Trade) : String :=
  t.symbol ++ "_" ++ t.instrumentType.str ++ "_" ++ toString (t.strikePrice.getD 0)
    ++ "_" ++ toString t.expiryDate

/-- The instrument key computed from a position's own (creation-time) fields;
equals the key of the trade that opened it. -/
def instrumentKeyOfPosition (p : Position) : String :=
  p.symbol ++ "_" ++ p.instrumentType.str ++ "_" ++ toString (p.strikePrice.getD 0)
    ++ "_" ++ toString p.expiryDate

/-- One FIFO closing step of a buy order `t` against an open short position
(calculations.ts lines 330–357): push the order, accrue buy value pro-rata,
decrement the remaining quantity, accrue realized P&L
`q * (entryPrice − price)`; on reaching zero remaining, close the position,
record close time / exit price and the final average buy price. -/
def closeShortStep (p : Position) (t : Trade) (q : Rat) : Position :=
  let tbv := p.totalBuyValue + q / t.quantity * t.value
  let rem := p.remainingQuantity - q
  let pnl := p.realizedPnL + q * (p.entryPrice - t.price)
  if rem = 0 then
    { p with trades := p.trades ++ [t], totalBuyValue := tbv, remainingQuantity := rem,
             realizedPnL := pnl, status := .closed, closeTime := some t.orderExecutionTime,
             exitPrice := some t.price, netQuantity := 0, avgBuyPrice := tbv / p.maxQuantity }
  else
    { p with trades := p.trades ++ [t], totalBuyValue := tbv, remainingQuantity := rem,
             realizedPnL := pnl, netQuantity := -rem }

/-- One FIFO closing step of a sell order `t` against an open long position
(calculations.ts lines 395–422), symmetric to `closeShortStep`. -/
def closeLongStep (p : Position) (t : Trade) (q : Rat) : Position :=
  let tsv := p.totalSellValue + q / t.quantity * t.value
  let rem := p.remainingQuantity - q
  let pnl := p.realizedPnL + q * (t.price - p.entryPrice)
  if rem = 0 then
    { p with trades := p.trades ++ [t], totalSellValue := tsv, remainingQuantity := rem,
             realizedPnL := pnl, status := .closed, closeTime := some t.orderExecutionTime,
             exitPrice := some t.price, netQuantity := 0, avgSellPrice := tsv / p.maxQuantity }
  else
    { p with trades := p.trades ++ [t], totalSellValue := tsv, remainingQuantity := rem,
             realizedPnL := pnl, netQuantity := rem }

/-- Walk of a buy order over the ledger, closing eligible short positions of
its instrument key in creation (FIFO) order. Eligibility is exactly the
source's: key match, negative net quantity, positive remaining quantity on
the position, and positive unmatched quantity left on the order. Returns the
updated ledger and the order's unmatched quantity. -/
def closeShorts (key : String) (t : Trade) : Rat → List Position → List Position × Rat
  | rem, [] => ([], rem)
  | rem, p :: ps =>
    if instrumentKeyOfPosition p = key ∧ p.netQuantity < 0 ∧
        0 < p.remainingQuantity ∧ 0 < rem then
      let q := min p.remainingQuantity rem
      let res := closeShorts key t (rem - q) ps
      (closeShortStep p t q :: res.1, res.2)
    else
      let res := closeShorts key t rem ps
      (p :: res.1, res.2)

/-- Walk of a sell order over the ledger, closing eligible long positions of
its instrument key in creation (FIFO) order; symmetric to `closeShorts`. -/
def closeLongs (key : String) (t : Trade) : Rat → List Position → List Position × Rat
  | rem, [] => ([], rem)
  | rem, p :: ps =>
    if instrumentKeyOfPosition p = key ∧ 0 < p.netQuantity ∧
        0 < p.remainingQuantity ∧ 0 < rem then
      let q := min p.remainingQuantity rem
      let res := closeLongs key t (rem - q) ps
      (closeLongStep p t q :: res.1, res.2)
    else
      let res := closeLongs key t rem ps
      (p :: res.1, res.2)

/-- A freshly opened long position (calculations.ts lines 361–380). -/
def newLongPosition (pid : String) (t : Trade) (rem : Rat) : Position :=
  { positionId := pid
    symbol := t.symbol
    instrumentType := t.instrumentType
    strikePrice := t.strikePrice
    expiryDate := t.expiryDate
    netQuantity := rem
    avgBuyPrice := t.price
    avgSellPrice := 0
    totalBuyValue := rem / t.quantity * t.value
    totalSellValue := 0
    realizedPnL := 0
    unrealizedPnL := 0
    status := .«open»
    trades := [t]
    openTime := t.orderExecutionTime
    closeTime := none
    entryPrice := t.price
    exitPrice := none
    maxQuantity := rem
    remainingQuantity := rem }

/-- A freshly opened short position (calculations.ts lines 426–445). -/
def newShortPosition (pid : String) (t : Trade) (rem : Rat) : Position :=
  { positionId := pid
    symbol := t.symbol
    instrumentType := t.instrumentType
    strikePrice := t.strikePrice
    expiryDate := t.expiryDate
    netQuantity := -rem
    avgBuyPrice := 0
    avgSellPrice := t.price
    totalBuyValue := 0
    totalSellValue := rem / t.quantity * t.value
    realizedPnL := 0
    unrealizedPnL := 0
    status := .«open»
    trades := [t]
    openTime := t.orderExecutionTime
    closeTime := none
    entryPrice := t.price
    exitPrice := none
    maxQuantity := rem
    remainingQuantity := rem }

/-- The position id
`` `${instrumentKey}_${orderExecutionTime.getTime()}_${Math.random()...}` `` with the
random suffix drawn from the stream `rnd` at the current creation count. -/
def freshPositionId (rnd : Nat → String) (key : String) (t : Trade) (created : Nat) : String :=
  key ++ "_" ++ toString t.orderExecutionTime ++ "_" ++ rnd created

/-- Processing of one order against the ledger (`calculatePositions` body):
close opposite-side open positions of the order's key FIFO, then open a new
position for any unmatched quantity. The source's per-key open-position map
is the ledger filtered to the key with positive remaining quantity (see the
file header), so pruning needs no separate step here. -/
def processTrade (rnd : Nat → String) (ps : List Position) (t : Trade) : List Position :=
  let key := instrumentKeyOfTrade t
  match t.tradeType with
  | .buy =>
    let res := closeShorts key t t.quantity ps
    if 0 < res.2 then
      res.1 ++ [newLongPosition (freshPositionId rnd key t ps.length) t res.2]
    else res.1
  | .sell =>
    let res := closeLongs key t t.quantity ps
    if 0 < res.2 then
      res.1 ++ [newShortPosition (freshPositionId rnd key t ps.length) t res.2]
    else res.1

/-- `[...trades].sort((a, b) => a.orderExecutionTime.getTime() - b.orderExecutionTime.getTime())`:
a stable ascending sort by execution time. -/
def sortTrades (trades : List Trade) : List Trade :=
  trades.insertionSort (fun a b => a.orderExecutionTime ≤ b.orderExecutionTime)

/-- Folding a sequence of orders over a starting ledger. -/
def processTrades (rnd : Nat → String) (ps : List Position) (trades : List Trade) :
    List Position :=
  trades.foldl (processTrade rnd) ps

/-- `calculatePositions` (calculations.ts lines 306–458): sort the orders by
execution time and match them through the FIFO engine, yielding the complete
ledger of positions ever created, in creation order. -/
def calculatePositions (rnd : Nat → String) (trades : List Trade) : List Position :=
  processTrades rnd [] (sortTrades trades)

/-- An `EnhancedDailyPnL` record (calculations.ts lines 461–470 extending
`DailyPnL` of types/trade.ts): one calendar-day bucket. -/
structure EnhancedDailyPnL where
  date : Int
  realizedPnL : Rat
  brokerage : Rat
  netPnL : Rat
  totalTrades : Int
  winningTrades : Int
  losingTrades : Int
  grossTurnover : Rat
  totalOrders : Int
  winningOrders : Int
  losingOrders : Int
  orderWinRate : Rat
  tradeWinRate : Rat
deriving DecidableEq, Repr

/-- The zero-valued day record created lazily per distinct trade date
(calculations.ts lines 480–495). -/
def emptyDaily (date : Int) : EnhancedDailyPnL :=
  { date := date, realizedPnL := 0, brokerage := 0, netPnL := 0, totalTrades := 0,
    winningTrades := 0, losingTrades := 0, grossTurnover := 0, totalOrders := 0,
    winningOrders := 0, losingOrders := 0, orderWinRate := 0, tradeWinRate := 0 }

/-- First pass of `calculateDailyPnL`: create one zero record per distinct
trade date, in first-encounter (JS `Map` insertion) order. -/
def initDaily (trades : List Trade) : List EnhancedDailyPnL :=
  trades.foldl
    (fun m t => if m.any (fun r => r.date == t.tradeDate) then m
                else m ++ [emptyDaily t.tradeDate]) []

/-- Second (turnover) pass of `calculateDailyPnL` (lines 500–513): per
order, accumulate brokerage, order count, turnover and execution count onto
its trade date's record; a missing record (the source's `if (daily)` guard)
leaves the map unchanged. -/
def chargesPass (m : List EnhancedDailyPnL) (trades : List Trade) : List EnhancedDailyPnL :=
  trades.foldl
    (fun m t => m.map (fun r =>
      if r.date = t.tradeDate then
        { r with brokerage := r.brokerage + (calculateBrokerageCharges t t.exchange).totalCharges,
                 totalOrders := r.totalOrders + 1,
                 grossTurnover := r.grossTurnover + t.value,
                 totalTrades := r.totalTrades + t.trades.length }
      else r)) m

/-- The distinct trade dates spanned by a position's constituent orders:
`[...new Set(position.trades.map(t => format(startOfDay(t.tradeDate), 'yyyy-MM-dd')))].sort()`
(lines 520–522). The JS expression deduplicates and then sorts the day keys
ascending; the result — the sorted duplicate-free list of spanned days — is
what is modelled (a sorted list with no duplicates is determined by its
members, so the dedup traversal order is immaterial). -/
def spannedDates (p : Position) : List Int :=
  List.insertionSort (· ≤ ·) (p.trades.map (fun t => t.tradeDate)).dedup

/-- Win/loss attribution of a closed position onto a day record: order-level
counters by 1, execution-level counters by the position's order count
(lines 532–538 and 551–559). -/
def addWinLoss (r : EnhancedDailyPnL) (p : Position) : EnhancedDailyPnL :=
  if 0 < p.realizedPnL then
    { r with winningOrders := r.winningOrders + 1,
             winningTrades := r.winningTrades + p.trades.length }
  else
    { r with losingOrders := r.losingOrders + 1,
             losingTrades := r.losingTrades + p.trades.length }

/-- Third (P&L) pass of `calculateDailyPnL`, body for one position
(lines 517–564): closed positions with nonzero realized P&L assign their
P&L to the single spanned date (with win/loss attribution), or spread it
evenly across several spanned dates with win/loss attribution only on the
last (index `length - 1`) date. -/
def applyPositionPnL (m : List EnhancedDailyPnL) (p : Position) : List EnhancedDailyPnL :=
  if p.status = .closed ∧ p.realizedPnL ≠ 0 then
    match spannedDates p with
    | [d] =>
      m.map (fun r =>
        if r.date = d then addWinLoss { r with realizedPnL := r.realizedPnL + p.realizedPnL } p
        else r)
    | _ =>
      (spannedDates p).enum.foldl (fun acc x =>
        acc.map (fun r =>
          if r.date = x.2 then
            let r1 := { r with realizedPnL :=
              r.realizedPnL + p.realizedPnL / ((spannedDates p).length : Rat) }
            if x.1 = (spannedDates p).length - 1 then addWinLoss r1 p else r1
          else r)) m
  else m

/-- Final pass of `calculateDailyPnL` (lines 567–577): net P&L and the two
win-rate percentages, with zero-denominator guards. -/
def finalizeDaily (r : EnhancedDailyPnL) : EnhancedDailyPnL :=
  let totalCompletedOrders := r.winningOrders + r.losingOrders
  let totalCompletedTrades := r.winningTrades + r.losingTrades
  { r with netPnL := r.realizedPnL - r.brokerage,
           orderWinRate := if 0 < totalCompletedOrders then
             (r.winningOrders : Rat) / (totalCompletedOrders : Rat) * 100 else 0,
           tradeWinRate := if 0 < totalCompletedTrades then
             (r.winningTrades : Rat) / (totalCompletedTrades : Rat) * 100 else 0 }

/-- `calculateDailyPnL` (calculations.ts lines 472–580): initialize day
records, run the turnover pass, apportion realized P&L of closed positions,
finalize rates, and return the records sorted ascending by date. -/
def calculateDailyPnL (rnd : Nat → String) (trades : List Trade) : List EnhancedDailyPnL :=
  let m1 := chargesPass (initDaily trades) trades
  let m2 := (calculatePositions rnd trades).foldl applyPositionPnL m1
  List.insertionSort (fun a b => a.date ≤ b.date) (m2.map finalizeDaily)

/-- `TradeStatistics` (types/trade.ts): aggregate statistics. The profit
factor, which in the source can be the JS value `Infinity`, is modelled in
`WithTop Rat` with `⊤` standing for `+∞`. -/
structure TradeStatistics where
  totalTrades : Int
  winningTrades : Int
  losingTrades : Int
  winRate : Rat
  totalPnL : Rat
  avgWin : Rat
  avgLoss : Rat
  maxWin : Rat
  maxLoss : Rat
  profitFactor : WithTop Rat
  grossTurnover : Rat
  totalBrokerage : Rat
  netPnL : Rat
deriving DecidableEq, Repr

/-- Total winning P&L (`totalWins`, line 615): the sum of realized P&L over
closed positions with positive realized P&L. -/
def totalWins (rnd : Nat → String) (trades : List Trade) : Rat :=
  ((((calculatePositions rnd trades).filter
      (fun p => decide (p.status = .closed))).filter
      (fun p => decide (0 < p.realizedPnL))).map (·.realizedPnL)).sum

/-- Total losing P&L magnitude (`totalLosses`, line 616): the absolute value
of the sum of realized P&L over closed positions with negative realized P&L. -/
def totalLosses (rnd : Nat → String) (trades : List Trade) : Rat :=
  |((((calculatePositions rnd trades).filter
      (fun p => decide (p.status = .closed))).filter
      (fun p => decide (p.realizedPnL < 0))).map (·.realizedPnL)).sum|

/-- The profit factor (line 617):
`totalLosses > 0 ? totalWins / totalLosses : totalWins > 0 ? Infinity : 0`. -/
def profitFactor (rnd : Nat → String) (trades : List Trade) : WithTop Rat :=
  if 0 < totalLosses rnd trades then ((totalWins rnd trades / totalLosses rnd trades : Rat) : WithTop Rat)
  else if 0 < totalWins rnd trades then ⊤
  else 0

/-- `calculateTradeStatistics` (calculations.ts lines 582–634). The
`Math.max(...)`/`Math.min(...)` guards for `maxWin`/`maxLoss` are modelled
with a fold seeded at 0, which agrees because winning (resp. losing) P&L
values are all positive (resp. negative). -/
def calculateTradeStatistics (rnd : Nat → String) (trades : List Trade) : TradeStatistics :=
  let positions := calculatePositions rnd trades
  let closedPositions := positions.filter (fun p => decide (p.status = .closed))
  let winningPositions := closedPositions.filter (fun p => decide (0 < p.realizedPnL))
  let losingPositions := closedPositions.filter (fun p => decide (p.realizedPnL < 0))
  let totalPnL := (closedPositions.map (·.realizedPnL)).sum
  let grossTurnover := (trades.map (·.value)).sum
  let totalBrokerage :=
    (trades.map (fun mt => (calculateBrokerageCharges mt mt.exchange).totalCharges)).sum
  { totalTrades := trades.length
    winningTrades := winningPositions.length
    losingTrades := losingPositions.length
    winRate := if 0 < closedPositions.length then
      (winningPositions.length : Rat) / (closedPositions.length : Rat) * 100 else 0
    totalPnL := totalPnL
    avgWin := if 0 < winningPositions.length then
      ((winningPositions.map (·.realizedPnL)).sum) / (winningPositions.length : Rat) else 0
    avgLoss := if 0 < losingPositions.length then
      ((losingPositions.map (·.realizedPnL)).sum) / (losingPositions.length : Rat) else 0
    maxWin := if 0 < winningPositions.length then
      ((winningPositions.map (·.realizedPnL)).foldr max 0) else 0
    maxLoss := if 0 < losingPositions.length then
      ((losingPositions.map (·.realizedPnL)).foldr min 0) else 0
    profitFactor := profitFactor rnd trades
    grossTurnover := grossTurnover
    totalBrokerage := totalBrokerage
    netPnL := totalPnL - totalBrokerage }

/-- One point of the day-ordered cumulative net P&L series
(calculations.ts lines 812–819). -/
structure CumEntry where
  date : Int
  cumulativePnL : Rat
  dailyPnL : Rat
deriving DecidableEq, Repr

/-- The cumulative net P&L series: a running sum over the day records. -/
def cumulativeDataOf (dailyPnL : List EnhancedDailyPnL) : List CumEntry :=
  (dailyPnL.foldl
    (fun acc day =>
      (acc.1 + day.netPnL, acc.2 ++ [⟨day.date, acc.1 + day.netPnL, day.netPnL⟩]))
    ((0 : Rat), ([] : List CumEntry))).2

/-- `Math.ceil((endMs - startMs) / (1000*60*60*24))` where dates are day
indices and `getTime()` is the day index times 86,400,000 ms. -/
def jsDayCeil (endDate startDate : Int) : Int :=
  ⌈(((endDate - startDate) * 86400000 : Int) : Rat) / (1000 * 60 * 60 * 24)⌉

/-- A `DrawdownPeriod` record (calculations.ts lines 749–760). -/
structure DrawdownPeriod where
  startDate : Int
  endDate : Int
  peakValue : Rat
  troughValue : Rat
  drawdownAmount : Rat
  drawdownPercentage : Rat
  recoveryDate : Option Int
  durationDays : Int
  recoveryDays : Option Int
  isRecovered : Bool
deriving DecidableEq, Repr

/-- A `DrawdownAnalysis` record (calculations.ts lines 762–773). -/
structure DrawdownAnalysis where
  maxDrawdown : Rat
  maxDrawdownPercentage : Rat
  currentDrawdown : Rat
  currentDrawdownPercentage : Rat
  drawdownPeriods : List DrawdownPeriod
  avgDrawdown : Rat
  avgDrawdownPercentage : Rat
  avgRecoveryDays : Rat
  totalDrawdownDays : Int
  drawdownFrequency : Rat
deriving DecidableEq, Repr

/-- The all-zero drawdown analysis returned for an empty day series
(calculations.ts lines 795–808). -/
def emptyDrawdownAnalysis : DrawdownAnalysis :=
  { maxDrawdown := 0, maxDrawdownPercentage := 0, currentDrawdown := 0,
    currentDrawdownPercentage := 0, drawdownPeriods := [], avgDrawdown := 0,
    avgDrawdownPercentage := 0, avgRecoveryDays := 0, totalDrawdownDays := 0,
    drawdownFrequency := 0 }

/-- The drawdown state machine (calculations.ts lines 823–863): iterate the
cumulative series from index 1, carrying the running peak, the open
drawdown start (the source's `inDrawdown`/`drawdownStart` pair, which are
always null/false together, collapsed into one `Option`), and the previous
entry (`cumulativeData[i-1]`). Returns the finished (recovered) periods and
the final peak, open-drawdown start and last entry. -/
def ddLoop (peak : Rat) (ddStart : Option CumEntry) (prev : CumEntry) :
    List CumEntry → List DrawdownPeriod × Rat × Option CumEntry × CumEntry
  | [] => ([], peak, ddStart, prev)
  | c :: rest =>
    if peak < c.cumulativePnL then
      let finished :=
        match ddStart with
        | some s =>
          let drawdownAmount := peak - prev.cumulativePnL
          [{ startDate := s.date, endDate := prev.date, peakValue := peak,
             troughValue := prev.cumulativePnL, drawdownAmount := drawdownAmount,
             drawdownPercentage := if peak ≠ 0 then drawdownAmount / |peak| * 100 else 0,
             recoveryDate := some c.date, durationDays := jsDayCeil prev.date s.date,
             recoveryDays := some (jsDayCeil c.date prev.date), isRecovered := true }]
        | none => []
      let res := ddLoop c.cumulativePnL none c rest
      (finished ++ res.1, res.2)
    else if c.cumulativePnL < peak then
      match ddStart with
      | some s => ddLoop peak (some s) c rest
      | none => ddLoop peak (some c) c rest
    else
      ddLoop peak ddStart c rest

/-- The drawdown analysis computed from an already-built day series
(`calculateDrawdownAnalysis` body, calculations.ts lines 795–915). -/
def drawdownFromDaily (dailyPnL : List EnhancedDailyPnL) : DrawdownAnalysis :=
  match cumulativeDataOf dailyPnL with
  | [] => emptyDrawdownAnalysis
  | c0 :: rest =>
    let res := ddLoop c0.cumulativePnL none c0 rest
    let currentPeak := res.2.1
    let ddStart := res.2.2.1
    let lastData := res.2.2.2
    let drawdownPeriods :=
      match ddStart with
      | some s =>
        let drawdownAmount := currentPeak - lastData.cumulativePnL
        res.1 ++
          [{ startDate := s.date, endDate := lastData.date, peakValue := currentPeak,
             troughValue := lastData.cumulativePnL, drawdownAmount := drawdownAmount,
             drawdownPercentage := if currentPeak ≠ 0 then drawdownAmount / |currentPeak| * 100 else 0,
             recoveryDate := none, durationDays := jsDayCeil lastData.date s.date,
             recoveryDays := none, isRecovered := false }]
      | none => res.1
    let maxDrawdown := (drawdownPeriods.map (·.drawdownAmount)).foldr max 0
    let maxDrawdownPercentage := (drawdownPeriods.map (·.drawdownPercentage)).foldr max 0
    let currentDrawdown := if ddStart.isSome then currentPeak - lastData.cumulativePnL else 0
    let recoveredPeriods := drawdownPeriods.filter
      (fun d => d.isRecovered && d.recoveryDays.isSome)
    let totalDrawdownDays := (drawdownPeriods.map (·.durationDays)).sum
    let totalDays := jsDayCeil lastData.date c0.date
    { maxDrawdown := maxDrawdown
      maxDrawdownPercentage := maxDrawdownPercentage
      currentDrawdown := currentDrawdown
      currentDrawdownPercentage := if ddStart.isSome ∧ currentPeak ≠ 0 then
        currentDrawdown / |currentPeak| * 100 else 0
      drawdownPeriods := drawdownPeriods
      avgDrawdown := if 0 < drawdownPeriods.length then
        ((drawdownPeriods.map (·.drawdownAmount)).sum) / (drawdownPeriods.length : Rat) else 0
      avgDrawdownPercentage := if 0 < drawdownPeriods.length then
        ((drawdownPeriods.map (·.drawdownPercentage)).sum) / (drawdownPeriods.length : Rat) else 0
      avgRecoveryDays := if 0 < recoveredPeriods.length then
        (((recoveredPeriods.map (fun d => d.recoveryDays.getD 0)).sum : Int) : Rat)
          / (recoveredPeriods.length : Rat) else 0
      totalDrawdownDays := totalDrawdownDays
      drawdownFrequency := if 0 < totalDays then
        (drawdownPeriods.length : Rat) / (totalDays : Rat) * 365 else 0 }

/-- `calculateDrawdownAnalysis` (calculations.ts lines 792–916). -/
def calculateDrawdownAnalysis (rnd : Nat → String) (trades : List Trade) : DrawdownAnalysis :=
  drawdownFromDaily (calculateDailyPnL rnd trades)

/-- Streak outcome type (the TypeScript union `'win' | 'loss'`). -/
inductive StreakType where
  | win
  | loss
deriving DecidableEq, Repr

/-- A maximal run of same-outcome closed positions. -/
structure Streak where
  type : StreakType
  count : Nat
deriving DecidableEq, Repr

/-- One row of the streak-length distribution. -/
structure StreakBucket where
  streakLength : Nat
  winCount : Nat
  lossCount : Nat
deriving DecidableEq, Repr

/-- A `StreakAnalysis` record (calculations.ts lines 1081–1088). -/
structure StreakAnalysis where
  currentStreak : Streak
  longestWinStreak : Nat
  longestLossStreak : Nat
  avgWinStreak : Rat
  avgLossStreak : Rat
  streakDistribution : List StreakBucket
deriving DecidableEq, Repr

/-- Run-length encoding of outcomes (calculations.ts lines 1133–1151),
carrying the current streak's type and count. -/
def streakLoop (curType : StreakType) (curCount : Nat) : List Position → List Streak
  | [] => [⟨curType, curCount⟩]
  | p :: ps =>
    let sType := if 0 < p.realizedPnL then StreakType.win else StreakType.loss
    if sType = curType then streakLoop curType (curCount + 1) ps
    else ⟨curType, curCount⟩ :: streakLoop sType 1 ps

/-- The zero-valued streak analysis for an empty closed-position list
(calculations.ts lines 1121–1130). -/
def emptyStreakAnalysis : StreakAnalysis :=
  { currentStreak := ⟨.win, 0⟩, longestWinStreak := 0, longestLossStreak := 0,
    avgWinStreak := 0, avgLossStreak := 0, streakDistribution := [] }

/-- `calculateStreakAnalysis` (calculations.ts lines 1112–1181). -/
def calculateStreakAnalysis (rnd : Nat → String) (trades : List Trade) : StreakAnalysis :=
  let closedPositions := List.insertionSort (fun a b => a.openTime ≤ b.openTime)
    ((calculatePositions rnd trades).filter
      (fun p => decide (p.status = .closed ∧ p.realizedPnL ≠ 0)))
  match closedPositions with
  | [] => emptyStreakAnalysis
  | p0 :: rest =>
    let streaks := streakLoop (if 0 < p0.realizedPnL then .win else .loss) 1 rest
    let winStreaks := (streaks.filter (fun s => decide (s.type = .win))).map (·.count)
    let lossStreaks := (streaks.filter (fun s => decide (s.type = .loss))).map (·.count)
    let longestWinStreak := winStreaks.foldr max 0
    let longestLossStreak := lossStreaks.foldr max 0
    let maxStreak := max longestWinStreak longestLossStreak
    { currentStreak := (streaks.getLast?).getD ⟨.win, 0⟩
      longestWinStreak := longestWinStreak
      longestLossStreak := longestLossStreak
      avgWinStreak := if 0 < winStreaks.length then
        ((winStreaks.sum : Nat) : Rat) / (winStreaks.length : Rat) else 0
      avgLossStreak := if 0 < lossStreaks.length then
        ((lossStreaks.sum : Nat) : Rat) / (lossStreaks.length : Rat) else 0
      streakDistribution :=
        ((List.range maxStreak).map (· + 1)).foldl (fun acc i =>
          let winCount := (winStreaks.filter (fun s => s == i)).length
          let lossCount := (lossStreaks.filter (fun s => s == i)).length
          if 0 < winCount ∨ 0 < lossCount then acc ++ [⟨i, winCount, lossCount⟩] else acc) [] }

/-- A `PerformanceRatios` record (calculations.ts lines 1090–1096). The
ratios involve a square root, so they live in the reals. -/
structure PerformanceRatios where
  sharpeRatio : Real
  calmarRatio : Real
  sortinoRatio : Real
  maxDrawdownRatio : Real
  profitToMaxDrawdownRatio : Real

/-- The daily net P&L series feeding the ratios (line 1198). -/
def dailyReturns (rnd : Nat → String) (trades : List Trade) : List Rat :=
  (calculateDailyPnL rnd trades).map (·.netPnL)

/-- `totalReturn` (line 1199). -/
def totalReturn (rnd : Nat → String) (trades : List Trade) : Rat :=
  (dailyReturns rnd trades).sum

/-- `avgDailyReturn` (line 1200). -/
def avgDailyReturn (rnd : Nat → String) (trades : List Trade) : Rat :=
  totalReturn rnd trades / ((dailyReturns rnd trades).length : Rat)

/-- Population variance of the daily returns (line 1203); a rational, since
only the subsequent square root leaves the rationals. -/
def dailyVariance (rnd : Nat → String) (trades : List Trade) : Rat :=
  (((dailyReturns rnd trades).map
      (fun ret => (ret - avgDailyReturn rnd trades) ^ 2)).sum)
    / ((dailyReturns rnd trades).length : Rat)

/-- `annualReturn = avgDailyReturn * 252` (line 1208). -/
def annualReturn (rnd : Nat → String) (trades : List Trade) : Rat :=
  avgDailyReturn rnd trades * 252

/-- `annualVolatility = stdDev * Math.sqrt(252)` (lines 1204, 1209). -/
noncomputable def annualVolatility (rnd : Nat → String) (trades : List Trade) : Real :=
  Real.sqrt ((dailyVariance rnd trades : Rat) : Real) * Real.sqrt 252

/-- The daily returns strictly below the mean (line 1216). -/
def belowMeanReturns (rnd : Nat → String) (trades : List Trade) : List Rat :=
  (dailyReturns rnd trades).filter (fun ret => decide (ret < avgDailyReturn rnd trades))

/-- `downsideVariance` (lines 1217–1219), again a rational. -/
def downsideVariance (rnd : Nat → String) (trades : List Trade) : Rat :=
  if 0 < (belowMeanReturns rnd trades).length then
    (((belowMeanReturns rnd trades).map
        (fun ret => (ret - avgDailyReturn rnd trades) ^ 2)).sum)
      / ((belowMeanReturns rnd trades).length : Rat)
  else 0

/-- `annualDownsideVolatility = downsideStdDev * Math.sqrt(252)`
(lines 1220–1221). -/
noncomputable def annualDownsideVolatility (rnd : Nat → String) (trades : List Trade) : Real :=
  Real.sqrt ((downsideVariance rnd trades : Rat) : Real) * Real.sqrt 252

/-- `calculatePerformanceRatios` (calculations.ts lines 1184–1237). -/
noncomputable def calculatePerformanceRatios (rnd : Nat → String) (trades : List Trade) :
    PerformanceRatios :=
  if (calculateDailyPnL rnd trades).length = 0 then
    { sharpeRatio := 0, calmarRatio := 0, sortinoRatio := 0,
      maxDrawdownRatio := 0, profitToMaxDrawdownRatio := 0 }
  else
    let maxDrawdown := (calculateDrawdownAnalysis rnd trades).maxDrawdown
    { sharpeRatio := if 0 < annualVolatility rnd trades then
        ((annualReturn rnd trades : Rat) : Real) / annualVolatility rnd trades else 0
      calmarRatio := if 0 < maxDrawdown then
        ((annualReturn rnd trades : Rat) : Real) / ((maxDrawdown : Rat) : Real) else 0
      sortinoRatio := if 0 < annualDownsideVolatility rnd trades then
        ((annualReturn rnd trades : Rat) : Real) / annualDownsideVolatility rnd trades else 0
      maxDrawdownRatio := if 0 < |totalReturn rnd trades| then
        ((maxDrawdown / |totalReturn rnd trades| : Rat) : Real) else 0
      profitToMaxDrawdownRatio := if 0 < maxDrawdown then
        ((totalReturn rnd trades / maxDrawdown : Rat) : Real) else 0 }

/-! Auxiliary definitions used by the statements below: concrete example
inputs, the per-position well-formedness predicate, signed-quantity sums,
and erasure of the randomly suffixed position identifier. -/

/-- A concrete futures trade on the NSE with the given side, quantity,
price, execution time and order id (trade date 0, expiry day 10). -/
def mkTrade (sym : String) (side : TradeType) (qty price : Rat) (time : Int)
    (oid : String) : Trade :=
  { symbol := sym, tradeDate := 0, exchange := "NSE", tradeType := side,
    quantity := qty, price := price, value := qty * price, orderId := oid,
    orderExecutionTime := time, expiryDate := 10, instrumentType := .FUT,
    strikePrice := none, trades := [] }

/-- The FIFO scenario of the spec: opening orders O1 (qty 10, long) then
O2 (qty 5, long) on one instrument key, then a closing sell of qty 12. -/
def c1Trades : List Trade :=
  [mkTrade "NIFTYFUT" .buy 10 100 1 "O1",
   mkTrade "NIFTYFUT" .buy 5 100 2 "O2",
   mkTrade "NIFTYFUT" .sell 12 110 3 "O3"]

/-- The closing sell order of the FIFO scenario. -/
def c1Sell : Trade := mkTrade "NIFTYFUT" .sell 12 110 3 "O3"

/-- Its instrument key. -/
def c1Key : String := instrumentKeyOfTrade c1Sell

/-- The two open long positions of the FIFO scenario, in creation order:
first qty 10, then qty 5. -/
def c1Longs : List Position :=
  [newLongPosition "a" (mkTrade "NIFTYFUT" .buy 10 100 1 "O1") 10,
   newLongPosition "b" (mkTrade "NIFTYFUT" .buy 5 100 2 "O2") 5]

/-- Two orders that open and fully close one position (realized P&L 1000). -/
def c6First : List Trade :=
  [mkTrade "A" .buy 10 100 1 "O1", mkTrade "A" .sell 10 110 2 "O2"]

/-- A later order on the same key, processed after the position closed. -/
def c6Later : List Trade := [mkTrade "A" .buy 5 100 3 "O3"]

/-- A day record with the given date and net P&L and all other fields zero. -/
def mkDaily (date : Int) (netPnL : Rat) : EnhancedDailyPnL :=
  { emptyDaily date with netPnL := netPnL }

/-- A five-day series whose cumulative net P&L is `[0, 100, 60, 80, 120]`. -/
def c3Input : List EnhancedDailyPnL :=
  [mkDaily 0 0, mkDaily 1 100, mkDaily 2 (-40), mkDaily 3 20, mkDaily 4 40]

/-- A closed position with realized P&L 100 whose two constituent orders
span trade dates 5 and 6 (used to instantiate the apportionment theorem). -/
def c2Position : Position :=
  { positionId := "p", symbol := "A", instrumentType := .FUT, strikePrice := none,
    expiryDate := 10, netQuantity := 0, avgBuyPrice := 100, avgSellPrice := 110,
    totalBuyValue := 1000, totalSellValue := 1100, realizedPnL := 100,
    unrealizedPnL := 0, status := .closed,
    trades := [{ mkTrade "A" .buy 10 100 1 "O1" with tradeDate := 5 },
               { mkTrade "A" .sell 10 110 2 "O2" with tradeDate := 6 }],
    openTime := 1, closeTime := some 2, entryPrice := 100, exitPrice := some 110,
    maxQuantity := 10, remainingQuantity := 0 }

/-- Well-formedness of a ledger position: status is `closed` exactly when
nothing remains open, the remaining quantity sits between 0 and the maximum
quantity, and the signed net quantity is plus or minus the remaining
quantity. -/
def PosInv (p : Position) : Prop :=
  (p.status = .closed ↔ p.remainingQuantity = 0) ∧
  0 ≤ p.remainingQuantity ∧ p.remainingQuantity ≤ p.maxQuantity ∧
  (p.netQuantity = p.remainingQuantity ∨ p.netQuantity = -p.remainingQuantity)

/-- The signed quantity of an order: buys positive, sells negative. -/
def signedQty (t : Trade) : Rat :=
  match t.tradeType with
  | .buy => t.quantity
  | .sell => -t.quantity

/-- Sum of signed order quantities over the orders of one instrument key. -/
def signedSumKey (k : String) (trades : List Trade) : Rat :=
  ((trades.filter (fun t => decide (instrumentKeyOfTrade t = k))).map signedQty).sum

/-- Sum of signed net quantities over the ledger positions of one key. -/
def netSumKey (k : String) (ps : List Position) : Rat :=
  ((ps.filter (fun p => decide (instrumentKeyOfPosition p = k))).map (·.netQuantity)).sum

/-- A position with its randomly suffixed identifier blanked out; two runs
of the engine agree after this erasure. -/
def erasePositionId (p : Position) : Position :=
  { p with positionId := "" }

/-- Invariant of a merged order during aggregation: its quantity is the sum
of its members' quantities and its price is the first member's price (the
price field is only recomputed afterwards, and only for positive quantity). -/
def MergedQ (m : Trade) : Prop :=
  m.quantity = (m.trades.map (·.quantity)).sum ∧
  ∃ t0, m.trades.head? = some t0 ∧ m.price = t0.price

/-- The merged order produced by aggregating the single zero-quantity
execution `mkTrade "A" .buy 0 5 0 "O1"`. -/
def c8Merged : Trade :=
  { mkTrade "A" .buy 0 5 0 "O1" with trades := [(mkTrade "A" .buy 0 5 0 "O1").toTradeData] }

/-! Theorems. -/

/-- Claim C9: the core functions are total (they are plain recursive
functions of their input, so termination and absence of exceptions hold by
construction in this embedding) and, on the empty execution list, return
their empty/zero-valued forms. -/
theorem c9_empty_input_forms (rnd : Nat → String) :
    calculatePositions rnd [] = [] ∧
    calculateDailyPnL rnd [] = [] ∧
    calculateTradeStatistics rnd [] = ⟨0, 0, 0, 0, 0, 0, 0, 0, 0, 0, 0, 0, 0⟩ ∧
    calculateDrawdownAnalysis rnd [] = emptyDrawdownAnalysis ∧
    calculateStreakAnalysis rnd [] = emptyStreakAnalysis ∧
    calculatePerformanceRatios rnd [] =
      { sharpeRatio := 0, calmarRatio := 0, sortinoRatio := 0,
        maxDrawdownRatio := 0, profitToMaxDrawdownRatio := 0 } := by
  refine ⟨rfl, rfl, ?_, rfl, rfl, rfl⟩
  simp [calculateTradeStatistics, profitFactor, totalWins, totalLosses,
    calculatePositions, processTrades, sortTrades]

/-- Claim C3, counterexample: on the five-day series with cumulative net
P&L `[0, 100, 60, 80, 120]`, the engine reports one drawdown period whose
trough is the prior-day value 80 and whose amount is 20 — not trough 60 and
amount 40 as the claim states — and its max drawdown is 20, not 40. -/
theorem c3_counterexample :
    (drawdownFromDaily c3Input).drawdownPeriods.map
        (fun p => (p.peakValue, p.troughValue, p.drawdownAmount, p.isRecovered)) =
      [(100, 80, 20, true)] ∧
    (drawdownFromDaily c3Input).maxDrawdown = 20 ∧
    (drawdownFromDaily c3Input).drawdownPeriods.map (·.troughValue) ≠ [60] ∧
    (drawdownFromDaily c3Input).maxDrawdown ≠ 40 := by
  norm_num [drawdownFromDaily, cumulativeDataOf, ddLoop, c3Input, mkDaily, emptyDaily]

/-- Claim C3, amended: for every day series whose cumulative net P&L is
`[0, 100, 60, 80, 120]` (day net P&L `[0, 100, -40, 20, 40]`), the drawdown
engine reports exactly one drawdown period, with peak 100, trough 80 (the
cumulative value of the day before recovery, per the state machine), amount
20, marked recovered on the day the series reaches 120, and max drawdown
20. -/
theorem c3_drawdown_roundtrip_amended (ds : List EnhancedDailyPnL)
    (h : ds.map (·.netPnL) = [0, 100, -40, 20, 40]) :
    (drawdownFromDaily ds).drawdownPeriods.map
        (fun p => (p.peakValue, p.troughValue, p.drawdownAmount, p.isRecovered, p.recoveryDate)) =
      [(100, 80, 20, true, (ds[4]?).map (·.date))] ∧
    (drawdownFromDaily ds).maxDrawdown = 20 := by
  cases ds with
  | nil => simp at h
  | cons a t1 =>
  cases t1 with
  | nil => simp at h
  | cons b t2 =>
  cases t2 with
  | nil => simp at h
  | cons c t3 =>
  cases t3 with
  | nil => simp at h
  | cons d t4 =>
  cases t4 with
  | nil => simp at h
  | cons e t5 =>
  cases t5 with
  | cons f tl => simp at h
  | nil =>
  simp only [List.map_cons, List.map_nil, List.cons.injEq, and_true] at h
  obtain ⟨ha, hb, hc, hd, he⟩ := h
  norm_num [drawdownFromDaily, cumulativeDataOf, ddLoop, ha, hb, hc, hd, he]

/-- The order-id list of one aggregation step: unchanged when the order id
was already seen, extended by the new id otherwise. -/
theorem mergeStep_orderIds (acc : List Trade) (t : Trade) :
    (mergeStep acc t).map (·.orderId) =
      if t.orderId ∈ acc.map (·.orderId) then acc.map (·.orderId)
      else acc.map (·.orderId) ++ [t.orderId] := by
  have hcond : (acc.any (fun m => m.orderId == t.orderId) = true) ↔
      t.orderId ∈ acc.map (·.orderId) := by
    rw [List.any_eq_true]
    constructor
    · rintro ⟨m, hm, he⟩
      exact List.mem_map.mpr ⟨m, hm, by simpa using he⟩
    · rintro hmem
      obtain ⟨m, hm, he⟩ := List.mem_map.mp hmem
      exact ⟨m, hm, by simp [he]⟩
  by_cases h : t.orderId ∈ acc.map (·.orderId)
  · rw [if_pos h]
    unfold mergeStep
    rw [if_pos (hcond.mpr h), List.map_map]
    refine List.map_congr_left fun m _ => ?_
    simp only [Function.comp]
    split <;> rfl
  · rw [if_neg h]
    unfold mergeStep
    rw [if_neg (fun hc => h (hcond.mp hc))]
    simp

/-- One aggregation step preserves the merged-order invariant. -/
theorem mergeStep_Q (acc : List Trade) (t : Trade)
    (h : ∀ m ∈ acc, MergedQ m) : ∀ m ∈ mergeStep acc t, MergedQ m := by
  intro m hm
  unfold mergeStep at hm
  split at hm
  · obtain ⟨m0, hm0, rfl⟩ := List.mem_map.mp hm
    obtain ⟨hq, t0, ht0, hp⟩ := h m0 hm0
    split
    · obtain ⟨m1, hm1⟩ : ∃ m1, m0.trades = t0 :: m1 := by
        cases hts : m0.trades with
        | nil => rw [hts] at ht0; simp at ht0
        | cons x xs => rw [hts] at ht0; simp at ht0; exact ⟨xs, by rw [ht0]⟩
      refine ⟨?_, t0, ?_, hp⟩
      · show m0.quantity + t.quantity = ((m0.trades ++ [t.toTradeData]).map (·.quantity)).sum
        rw [hq]
        simp
      · show (m0.trades ++ [t.toTradeData]).head? = some t0
        rw [hm1]
        rfl
    · exact ⟨hq, t0, ht0, hp⟩
  · rcases List.mem_append.mp hm with h1 | h1
    · exact h m h1
    · have : m = { t with trades := [t.toTradeData] } := by simpa using h1
      subst this
      exact ⟨by simp [Trade.toTradeData], t.toTradeData, rfl, rfl⟩

/-- Folding the aggregation step keeps the order-id list duplicate-free,
accumulates exactly the ids seen, and preserves the merged-order invariant. -/
theorem mergeFold_spec (ts : List Trade) : ∀ (acc : List Trade),
    (acc.map (·.orderId)).Nodup → (∀ m ∈ acc, MergedQ m) →
    ((ts.foldl mergeStep acc).map (·.orderId)).Nodup ∧
    (∀ id, id ∈ (ts.foldl mergeStep acc).map (·.orderId) ↔
       id ∈ acc.map (·.orderId) ∨ id ∈ ts.map (·.orderId)) ∧
    (∀ m ∈ ts.foldl mergeStep acc, MergedQ m) := by
  induction ts with
  | nil =>
    intro acc h hQ
    exact ⟨h, fun id => by simp, hQ⟩
  | cons t ts ih =>
    intro acc h hQ
    have hstep := mergeStep_orderIds acc t
    have hQ' := mergeStep_Q acc t hQ
    by_cases hm : t.orderId ∈ acc.map (·.orderId)
    · rw [if_pos hm] at hstep
      obtain ⟨g1, g2, g3⟩ := ih (mergeStep acc t) (hstep ▸ h) hQ'
      refine ⟨g1, fun id => ?_, g3⟩
      rw [List.foldl_cons] at *
      rw [g2, hstep]
      simp only [List.map_cons, List.mem_cons]
      constructor
      · rintro (h1 | h1)
        · exact Or.inl h1
        · exact Or.inr (Or.inr h1)
      · rintro (h1 | h1 | h1)
        · exact Or.inl h1
        · exact Or.inl (h1 ▸ hm)
        · exact Or.inr h1
    · rw [if_neg hm] at hstep
      have hnd : ((mergeStep acc t).map (·.orderId)).Nodup := by
        rw [hstep]
        simp [List.nodup_append, h, hm]
      obtain ⟨g1, g2, g3⟩ := ih (mergeStep acc t) hnd hQ'
      refine ⟨g1, fun id => ?_, g3⟩
      rw [List.foldl_cons] at *
      rw [g2, hstep]
      simp only [List.map_cons, List.mem_cons, List.mem_append, List.mem_singleton]
      tauto

/-- Claim C8, counterexample: a single execution with quantity 0 and price
5 is still emitted as an order, but its price is the first execution's
price 5, not 0 (nor left undefined: the field is present and equals 5). -/
theorem c8_counterexample :
    (mergeTradesByOrderId [mkTrade "A" .buy 0 5 0 "O1"]).map
        (fun m => (m.orderId, m.quantity, m.price)) = [("O1", 0, 5)] ∧
    (mergeTradesByOrderId [mkTrade "A" .buy 0 5 0 "O1"]).map (·.price) ≠ [0] := by
  norm_num [mergeTradesByOrderId, mergeStep, mkTrade]

/-- Claim C8, amended: `mergeTradesByOrderId` emits exactly one order per
distinct order identifier with no filtering (the emitted id list is
duplicate-free and has the same members as the input id list); every merged
order's quantity is the sum of its members' quantities; and an order whose
merged total quantity is not positive keeps, as its average price, the
price of its first member execution — the division by the quantity is never
performed (rather than the price being 0/undefined). -/
theorem c8_merge_no_filtering_amended (trades : List Trade) :
    ((mergeTradesByOrderId trades).map (·.orderId)).Nodup ∧
    (∀ id, id ∈ (mergeTradesByOrderId trades).map (·.orderId) ↔
       id ∈ trades.map (·.orderId)) ∧
    (∀ m ∈ mergeTradesByOrderId trades,
       m.quantity = (m.trades.map (·.quantity)).sum ∧
       (m.quantity ≤ 0 → ∃ t0, m.trades.head? = some t0 ∧ m.price = t0.price)) := by
  obtain ⟨g1, g2, g3⟩ := mergeFold_spec trades [] (by simp) (by simp)
  have hpres : (((trades.foldl mergeStep []).map
      (fun m => if 0 < m.quantity then { m with price := m.value / m.quantity } else m)).map
        (·.orderId)) = (trades.foldl mergeStep []).map (·.orderId) := by
    rw [List.map_map]
    refine List.map_congr_left fun m _ => ?_
    simp only [Function.comp]
    split <;> rfl
  refine ⟨?_, ?_, ?_⟩
  · rw [mergeTradesByOrderId, hpres]; exact g1
  · intro id
    rw [mergeTradesByOrderId, hpres, g2 id]
    simp
  · intro m hm
    rw [mergeTradesByOrderId] at hm
    obtain ⟨m0, hm0, rfl⟩ := List.mem_map.mp hm
    obtain ⟨hq, t0, ht0, hp⟩ := g3 m0 hm0
    by_cases hpos : 0 < m0.quantity
    · rw [if_pos hpos]
      refine ⟨hq, fun hle => absurd hpos (by simpa using hle)⟩
    · rw [if_neg hpos]
      exact ⟨hq, fun _ => ⟨t0, ht0, hp⟩⟩

/-- Claim C8, witness: the amended theorem applied to the single
zero-quantity execution; the merged order `c8Merged` is emitted with its
price left at the first member's price. -/
theorem c8_witness :
    c8Merged.quantity ≤ 0 ∧
    (∃ t0, c8Merged.trades.head? = some t0 ∧ c8Merged.price = t0.price) := by
  have hmem : c8Merged ∈ mergeTradesByOrderId [mkTrade "A" .buy 0 5 0 "O1"] := by
    norm_num [mergeTradesByOrderId, mergeStep, mkTrade, c8Merged]
  have h := (c8_merge_no_filtering_amended [mkTrade "A" .buy 0 5 0 "O1"]).2.2 c8Merged hmem
  exact ⟨by norm_num [c8Merged, mkTrade], h.2 (by norm_num [c8Merged, mkTrade])⟩

/-- Claim C3, witness: the amended theorem instantiated at the concrete
series `c3Input`. -/
theorem c3_witness :
    (drawdownFromDaily c3Input).drawdownPeriods.map
        (fun p => (p.peakValue, p.troughValue, p.drawdownAmount, p.isRecovered, p.recoveryDate)) =
      [(100, 80, 20, true, some 4)] ∧
    (drawdownFromDaily c3Input).maxDrawdown = 20 := by
  have h := c3_drawdown_roundtrip_amended c3Input (by norm_num [c3Input, mkDaily, emptyDaily])
  simpa [c3Input, mkDaily, emptyDaily] using h

/-- The closing walk over long positions preserves the ledger's length. -/
theorem closeLongs_length (key : String) (t : Trade) (rem : Rat) (ps : List Position) :
    (closeLongs key t rem ps).1.length = ps.length := by
  induction ps generalizing rem with
  | nil => rfl
  | cons p ps ih =>
    unfold closeLongs
    split
    · simp [ih]
    · simp [ih]

/-- The closing walk over short positions preserves the ledger's length. -/
theorem closeShorts_length (key : String) (t : Trade) (rem : Rat) (ps : List Position) :
    (closeShorts key t rem ps).1.length = ps.length := by
  induction ps generalizing rem with
  | nil => rfl
  | cons p ps ih =>
    unfold closeShorts
    split
    · simp [ih]
    · simp [ih]

/-- With no unmatched quantity left, the closing walk changes nothing. -/
theorem closeLongs_nonpos (key : String) (t : Trade) (rem : Rat) (ps : List Position)
    (h : ¬ 0 < rem) : closeLongs key t rem ps = (ps, rem) := by
  induction ps with
  | nil => rfl
  | cons p ps ih =>
    unfold closeLongs
    rw [if_neg (fun hc => h hc.2.2.2)]
    simp [ih]

/-- With no unmatched quantity left, the closing walk changes nothing. -/
theorem closeShorts_nonpos (key : String) (t : Trade) (rem : Rat) (ps : List Position)
    (h : ¬ 0 < rem) : closeShorts key t rem ps = (ps, rem) := by
  induction ps with
  | nil => rfl
  | cons p ps ih =>
    unfold closeShorts
    rw [if_neg (fun hc => h hc.2.2.2)]
    simp [ih]

/-- A closing step decrements the remaining quantity by the closed amount. -/
theorem closeLongStep_remainingQuantity (p : Position) (t : Trade) (q : Rat) :
    (closeLongStep p t q).remainingQuantity = p.remainingQuantity - q := by
  by_cases h : p.remainingQuantity - q = 0
  · simp [closeLongStep, h]
  · simp [closeLongStep, h]

/-- A closing step decrements the remaining quantity by the closed amount. -/
theorem closeShortStep_remainingQuantity (p : Position) (t : Trade) (q : Rat) :
    (closeShortStep p t q).remainingQuantity = p.remainingQuantity - q := by
  by_cases h : p.remainingQuantity - q = 0
  · simp [closeShortStep, h]
  · simp [closeShortStep, h]

/-- FIFO ordering of the sell-side closing walk: if the position at a later
index had its remaining quantity reduced, then every eligible
(key-matching, long, still-open) position at an earlier index was closed
completely. -/
theorem closeLongs_fifo (key : String) (t : Trade) :
    ∀ (ps : List Position) (rem : Rat) (i j : Nat), i < j →
      ∀ pi, ps[i]? = some pi → instrumentKeyOfPosition pi = key →
        0 < pi.netQuantity → 0 < pi.remainingQuantity →
      ∀ pj pj', ps[j]? = some pj → ((closeLongs key t rem ps).1)[j]? = some pj' →
        pj'.remainingQuantity < pj.remainingQuantity →
      ∀ pi', ((closeLongs key t rem ps).1)[i]? = some pi' →
        pi'.remainingQuantity = 0 := by
  intro ps
  induction ps with
  | nil =>
    intro rem i j hij pi hpi
    simp at hpi
  | cons p ps ih =>
    intro rem i j hij pi hpi hkey hnet hrem pj pj' hpj hpj' hdec pi' hpi'
    obtain ⟨j', rfl⟩ : ∃ j', j = j' + 1 := ⟨j - 1, by omega⟩
    rw [List.getElem?_cons_succ] at hpj
    cases i with
    | zero =>
      rw [List.getElem?_cons_zero, Option.some_inj] at hpi
      subst hpi
      by_cases hr : 0 < rem
      · have hguard : instrumentKeyOfPosition p = key ∧ 0 < p.netQuantity ∧
            0 < p.remainingQuantity ∧ 0 < rem := ⟨hkey, hnet, hrem, hr⟩
        by_cases hle : p.remainingQuantity ≤ rem
        · have heq : (closeLongs key t rem (p :: ps)).1 =
              closeLongStep p t (min p.remainingQuantity rem) ::
                (closeLongs key t (rem - min p.remainingQuantity rem) ps).1 := by
            simp only [closeLongs]
            rw [if_pos hguard]
          rw [heq, List.getElem?_cons_zero, Option.some_inj] at hpi'
          rw [← hpi', closeLongStep_remainingQuantity, min_eq_left hle]
          ring
        · have hmin : min p.remainingQuantity rem = rem :=
            min_eq_right (le_of_lt (lt_of_not_le hle))
          have hz : rem - min p.remainingQuantity rem = 0 := by rw [hmin]; ring
          have heq : (closeLongs key t rem (p :: ps)).1 =
              closeLongStep p t (min p.remainingQuantity rem) :: ps := by
            simp only [closeLongs]
            rw [if_pos hguard]
            simp [hz, closeLongs_nonpos key t 0 ps (by norm_num)]
          rw [heq, List.getElem?_cons_succ, hpj, Option.some_inj] at hpj'
          subst hpj'
          exact absurd hdec (lt_irrefl _)
      · have heq := closeLongs_nonpos key t rem (p :: ps) hr
        rw [heq] at hpj'
        simp only [List.getElem?_cons_succ] at hpj'
        rw [hpj, Option.some_inj] at hpj'
        subst hpj'
        exact absurd hdec (lt_irrefl _)
    | succ i' =>
      rw [List.getElem?_cons_succ] at hpi
      by_cases hguard : instrumentKeyOfPosition p = key ∧ 0 < p.netQuantity ∧
          0 < p.remainingQuantity ∧ 0 < rem
      · have heq : (closeLongs key t rem (p :: ps)).1 =
            closeLongStep p t (min p.remainingQuantity rem) ::
              (closeLongs key t (rem - min p.remainingQuantity rem) ps).1 := by
          simp only [closeLongs]
          rw [if_pos hguard]
        rw [heq, List.getElem?_cons_succ] at hpj' hpi'
        exact ih (rem - min p.remainingQuantity rem) i' j' (by omega) pi hpi hkey hnet hrem
          pj pj' hpj hpj' hdec pi' hpi'
      · have heq : (closeLongs key t rem (p :: ps)).1 =
            p :: (closeLongs key t rem ps).1 := by
          simp only [closeLongs]
          rw [if_neg hguard]
        rw [heq, List.getElem?_cons_succ] at hpj' hpi'
        exact ih rem i' j' (by omega) pi hpi hkey hnet hrem pj pj' hpj hpj' hdec pi' hpi'

/-- FIFO ordering of the buy-side closing walk, symmetric to
`closeLongs_fifo` with the eligible positions being the shorts. -/
theorem closeShorts_fifo (key : String) (t : Trade) :
    ∀ (ps : List Position) (rem : Rat) (i j : Nat), i < j →
      ∀ pi, ps[i]? = some pi → instrumentKeyOfPosition pi = key →
        pi.netQuantity < 0 → 0 < pi.remainingQuantity →
      ∀ pj pj', ps[j]? = some pj → ((closeShorts key t rem ps).1)[j]? = some pj' →
        pj'.remainingQuantity < pj.remainingQuantity →
      ∀ pi', ((closeShorts key t rem ps).1)[i]? = some pi' →
        pi'.remainingQuantity = 0 := by
  intro ps
  induction ps with
  | nil =>
    intro rem i j hij pi hpi
    simp at hpi
  | cons p ps ih =>
    intro rem i j hij pi hpi hkey hnet hrem pj pj' hpj hpj' hdec pi' hpi'
    obtain ⟨j', rfl⟩ : ∃ j', j = j' + 1 := ⟨j - 1, by omega⟩
    rw [List.getElem?_cons_succ] at hpj
    cases i with
    | zero =>
      rw [List.getElem?_cons_zero, Option.some_inj] at hpi
      subst hpi
      by_cases hr : 0 < rem
      · have hguard : instrumentKeyOfPosition p = key ∧ p.netQuantity < 0 ∧
            0 < p.remainingQuantity ∧ 0 < rem := ⟨hkey, hnet, hrem, hr⟩
        by_cases hle : p.remainingQuantity ≤ rem
        · have heq : (closeShorts key t rem (p :: ps)).1 =
              closeShortStep p t (min p.remainingQuantity rem) ::
                (closeShorts key t (rem - min p.remainingQuantity rem) ps).1 := by
            simp only [closeShorts]
            rw [if_pos hguard]
          rw [heq, List.getElem?_cons_zero, Option.some_inj] at hpi'
          rw [← hpi', closeShortStep_remainingQuantity, min_eq_left hle]
          ring
        · have hmin : min p.remainingQuantity rem = rem :=
            min_eq_right (le_of_lt (lt_of_not_le hle))
          have hz : rem - min p.remainingQuantity rem = 0 := by rw [hmin]; ring
          have heq : (closeShorts key t rem (p :: ps)).1 =
              closeShortStep p t (min p.remainingQuantity rem) :: ps := by
            simp only [closeShorts]
            rw [if_pos hguard]
            simp [hz, closeShorts_nonpos key t 0 ps (by norm_num)]
          rw [heq, List.getElem?_cons_succ, hpj, Option.some_inj] at hpj'
          subst hpj'
          exact absurd hdec (lt_irrefl _)
      · have heq := closeShorts_nonpos key t rem (p :: ps) hr
        rw [heq] at hpj'
        simp only [List.getElem?_cons_succ] at hpj'
        rw [hpj, Option.some_inj] at hpj'
        subst hpj'
        exact absurd hdec (lt_irrefl _)
    | succ i' =>
      rw [List.getElem?_cons_succ] at hpi
      by_cases hguard : instrumentKeyOfPosition p = key ∧ p.netQuantity < 0 ∧
          0 < p.remainingQuantity ∧ 0 < rem
      · have heq : (closeShorts key t rem (p :: ps)).1 =
            closeShortStep p t (min p.remainingQuantity rem) ::
              (closeShorts key t (rem - min p.remainingQuantity rem) ps).1 := by
          simp only [closeShorts]
          rw [if_pos hguard]
        rw [heq, List.getElem?_cons_succ] at hpj' hpi'
        exact ih (rem - min p.remainingQuantity rem) i' j' (by omega) pi hpi hkey hnet hrem
          pj pj' hpj hpj' hdec pi' hpi'
      · have heq : (closeShorts key t rem (p :: ps)).1 =
            p :: (closeShorts key t rem ps).1 := by
          simp only [closeShorts]
          rw [if_neg hguard]
        rw [heq, List.getElem?_cons_succ] at hpj' hpi'
        exact ih rem i' j' (by omega) pi hpi hkey hnet hrem pj pj' hpj hpj' hdec pi' hpi'

/-- Claim C1: a closing order is matched against open opposite-side
positions strictly in creation (ledger) order on both sides — if a later
position's remaining quantity decreased, every earlier eligible position
was fully closed — and, concretely, after opening O1 (qty 10, long) then O2
(qty 5, long) on one key, a closing sell of 12 fully closes O1's position
(realized P&L 100) and closes exactly 2 of O2's 5 (realized P&L 20,
remaining 3), never the reverse. -/
theorem c1_fifo_matching :
    (∀ (key : String) (t : Trade) (ps : List Position) (rem : Rat) (i j : Nat), i < j →
      ∀ pi, ps[i]? = some pi → instrumentKeyOfPosition pi = key →
        0 < pi.netQuantity → 0 < pi.remainingQuantity →
      ∀ pj pj', ps[j]? = some pj → ((closeLongs key t rem ps).1)[j]? = some pj' →
        pj'.remainingQuantity < pj.remainingQuantity →
      ∀ pi', ((closeLongs key t rem ps).1)[i]? = some pi' →
        pi'.remainingQuantity = 0) ∧
    (∀ (key : String) (t : Trade) (ps : List Position) (rem : Rat) (i j : Nat), i < j →
      ∀ pi, ps[i]? = some pi → instrumentKeyOfPosition pi = key →
        pi.netQuantity < 0 → 0 < pi.remainingQuantity →
      ∀ pj pj', ps[j]? = some pj → ((closeShorts key t rem ps).1)[j]? = some pj' →
        pj'.remainingQuantity < pj.remainingQuantity →
      ∀ pi', ((closeShorts key t rem ps).1)[i]? = some pi' →
        pi'.remainingQuantity = 0) ∧
    ((calculatePositions (fun _ => "r") c1Trades).map
        (fun p => (p.remainingQuantity, p.status, p.realizedPnL)) =
      [(0, .closed, 100), (3, .«open», 20)]) := by
  refine ⟨fun key t ps rem i j => closeLongs_fifo key t ps rem i j,
          fun key t ps rem i j => closeShorts_fifo key t ps rem i j, ?_⟩
  norm_num [calculatePositions, processTrades, sortTrades, c1Trades, mkTrade,
    List.insertionSort, List.orderedInsert, processTrade, closeShorts, closeLongs,
    closeShortStep, closeLongStep, newLongPosition, newShortPosition,
    instrumentKeyOfTrade, instrumentKeyOfPosition, InstrumentType.str, freshPositionId]

/-- Claim C1, witness: the FIFO theorem applied to the concrete scenario —
the sell of 12 reduced the second long from 5 to 3, so the first long's
remaining quantity is 0. -/
theorem c1_witness :
    ∃ pi', ((closeLongs c1Key c1Sell 12 c1Longs).1)[0]? = some pi' ∧
      pi'.remainingQuantity = 0 := by
  have hmap : (closeLongs c1Key c1Sell 12 c1Longs).1.map (·.remainingQuantity) = [0, 3] := by
    norm_num [c1Longs, c1Key, c1Sell, closeLongs, closeLongStep, newLongPosition,
      mkTrade, instrumentKeyOfPosition, instrumentKeyOfTrade, InstrumentType.str]
  have hlen : (closeLongs c1Key c1Sell 12 c1Longs).1.length = 2 := by
    have := congrArg List.length hmap
    simpa using this
  obtain ⟨pi', hpi'⟩ : ∃ x, ((closeLongs c1Key c1Sell 12 c1Longs).1)[0]? = some x :=
    ⟨_, List.getElem?_eq_getElem (by omega)⟩
  obtain ⟨pj', hpj'⟩ : ∃ x, ((closeLongs c1Key c1Sell 12 c1Longs).1)[1]? = some x :=
    ⟨_, List.getElem?_eq_getElem (by omega)⟩
  have hpj'rem : pj'.remainingQuantity = 3 := by
    have h1 : ((closeLongs c1Key c1Sell 12 c1Longs).1.map (·.remainingQuantity))[1]? = some 3 := by
      rw [hmap]
      rfl
    rw [List.getElem?_map, hpj'] at h1
    simpa using h1
  refine ⟨pi', hpi', ?_⟩
  refine c1_fifo_matching.1 c1Key c1Sell c1Longs 12 0 1 (by norm_num)
    (newLongPosition "a" (mkTrade "NIFTYFUT" .buy 10 100 1 "O1") 10) (by rfl)
    ?_ ?_ ?_
    (newLongPosition "b" (mkTrade "NIFTYFUT" .buy 5 100 2 "O2") 5) pj' (by rfl) hpj'
    ?_ pi' hpi'
  · norm_num [c1Key, c1Sell, newLongPosition, instrumentKeyOfPosition,
      instrumentKeyOfTrade, mkTrade, InstrumentType.str]
  · norm_num [newLongPosition, mkTrade]
  · norm_num [newLongPosition, mkTrade]
  · rw [hpj'rem]
    norm_num [newLongPosition, mkTrade]

/-- The total winning P&L is a sum of positive values, hence nonnegative. -/
theorem totalWins_nonneg (rnd : Nat → String) (trades : List Trade) :
    0 ≤ totalWins rnd trades := by
  unfold totalWins
  apply List.sum_nonneg
  intro x hx
  obtain ⟨p, hp, rfl⟩ := List.mem_map.mp hx
  exact le_of_lt (of_decide_eq_true ((List.mem_filter.mp hp).2))

/-- Claim C7: Sharpe, Sortino and Calmar each resolve to 0 (not NaN or
Infinity) when their denominator (annualized volatility, annualized
downside volatility, max drawdown respectively) is 0; and the profit factor
is `⊤` (the JS `+Infinity`) exactly when the total winning P&L is nonzero
and the total losing P&L is zero, and 0 when both are zero. -/
theorem c7_zero_denominator_guards (rnd : Nat → String) (trades : List Trade) :
    (annualVolatility rnd trades = 0 →
      (calculatePerformanceRatios rnd trades).sharpeRatio = 0) ∧
    (annualDownsideVolatility rnd trades = 0 →
      (calculatePerformanceRatios rnd trades).sortinoRatio = 0) ∧
    ((calculateDrawdownAnalysis rnd trades).maxDrawdown = 0 →
      (calculatePerformanceRatios rnd trades).calmarRatio = 0) ∧
    (profitFactor rnd trades = ⊤ ↔
      totalWins rnd trades ≠ 0 ∧ totalLosses rnd trades = 0) ∧
    (totalWins rnd trades = 0 → totalLosses rnd trades = 0 →
      profitFactor rnd trades = 0) := by
  have hw := totalWins_nonneg rnd trades
  have hl : 0 ≤ totalLosses rnd trades := abs_nonneg _
  refine ⟨?_, ?_, ?_, ⟨?_, ?_⟩, ?_⟩
  · intro h
    unfold calculatePerformanceRatios
    split
    · rfl
    · simp only
      rw [if_neg (by rw [h]; exact lt_irrefl 0)]
  · intro h
    unfold calculatePerformanceRatios
    split
    · rfl
    · simp only
      rw [if_neg (by rw [h]; exact lt_irrefl 0)]
  · intro h
    unfold calculatePerformanceRatios
    split
    · rfl
    · simp only
      rw [if_neg (by rw [h]; exact lt_irrefl (0 : Rat))]
  · intro h
    unfold profitFactor at h
    split at h
    · exact absurd h (by simp)
    · next hneg =>
      split at h
      · next hposw => exact ⟨ne_of_gt hposw, le_antisymm (not_lt.mp hneg) hl⟩
      · exact absurd h (by decide)
  · rintro ⟨hwne, hlz⟩
    unfold profitFactor
    rw [if_neg (by rw [hlz]; exact lt_irrefl 0),
      if_pos (lt_of_le_of_ne hw (Ne.symm hwne))]
  · intro hwz hlz
    unfold profitFactor
    rw [if_neg (by rw [hlz]; exact lt_irrefl 0), if_neg (by rw [hwz]; exact lt_irrefl 0)]

/-- Claim C7, witness: on the empty input each denominator is 0, and the
theorem yields Sharpe = Sortino = Calmar = 0 and profit factor 0. -/
theorem c7_witness :
    annualVolatility (fun _ => "") [] = 0 ∧
    annualDownsideVolatility (fun _ => "") [] = 0 ∧
    (calculateDrawdownAnalysis (fun _ => "") []).maxDrawdown = 0 ∧
    (calculatePerformanceRatios (fun _ => "") []).sharpeRatio = 0 ∧
    (calculatePerformanceRatios (fun _ => "") []).sortinoRatio = 0 ∧
    (calculatePerformanceRatios (fun _ => "") []).calmarRatio = 0 ∧
    profitFactor (fun _ => "") [] = 0 := by
  have hd : calculateDailyPnL (fun _ => "") [] = ([] : List EnhancedDailyPnL) := rfl
  have h1 : annualVolatility (fun _ => "") [] = 0 := by
    simp [annualVolatility, dailyVariance, dailyReturns, avgDailyReturn, totalReturn, hd]
  have h2 : annualDownsideVolatility (fun _ => "") [] = 0 := by
    simp [annualDownsideVolatility, downsideVariance, belowMeanReturns, dailyReturns, hd]
  have h3 : (calculateDrawdownAnalysis (fun _ => "") []).maxDrawdown = 0 := rfl
  have hwz : totalWins (fun _ => "") [] = 0 := rfl
  have hlz : totalLosses (fun _ => "") [] = 0 := by
    simp [totalLosses, calculatePositions, processTrades, sortTrades]
  obtain ⟨g1, g2, g3, _, g5⟩ := c7_zero_denominator_guards (fun _ => "") []
  exact ⟨h1, h2, h3, g1 h1, g2 h2, g3 h3, g5 hwz hlz⟩

/-- The sell-side closing walk leaves a fully closed position (remaining
quantity 0) untouched: the eligibility guard requires a positive remaining
quantity. -/
theorem closeLongs_getElem?_of_rem_zero (key : String) (t : Trade) :
    ∀ (ps : List Position) (rem : Rat) (i : Nat) (p : Position),
      ps[i]? = some p → p.remainingQuantity = 0 →
      ((closeLongs key t rem ps).1)[i]? = some p := by
  intro ps
  induction ps with
  | nil => intro rem i p hp; simp at hp
  | cons q ps ih =>
    intro rem i p hp h0
    cases i with
    | zero =>
      rw [List.getElem?_cons_zero, Option.some_inj] at hp
      subst hp
      have hng : ¬ (instrumentKeyOfPosition q = key ∧ 0 < q.netQuantity ∧
          0 < q.remainingQuantity ∧ 0 < rem) := by
        rintro ⟨-, -, hpos, -⟩
        rw [h0] at hpos
        exact lt_irrefl 0 hpos
      have heq : (closeLongs key t rem (q :: ps)).1 =
          q :: (closeLongs key t rem ps).1 := by
        simp only [closeLongs]
        rw [if_neg hng]
      rw [heq, List.getElem?_cons_zero]
    | succ i' =>
      rw [List.getElem?_cons_succ] at hp
      by_cases hguard : instrumentKeyOfPosition q = key ∧ 0 < q.netQuantity ∧
          0 < q.remainingQuantity ∧ 0 < rem
      · have heq : (closeLongs key t rem (q :: ps)).1 =
            closeLongStep q t (min q.remainingQuantity rem) ::
              (closeLongs key t (rem - min q.remainingQuantity rem) ps).1 := by
          simp only [closeLongs]
          rw [if_pos hguard]
        rw [heq, List.getElem?_cons_succ]
        exact ih (rem - min q.remainingQuantity rem) i' p hp h0
      · have heq : (closeLongs key t rem (q :: ps)).1 =
            q :: (closeLongs key t rem ps).1 := by
          simp only [closeLongs]
          rw [if_neg hguard]
        rw [heq, List.getElem?_cons_succ]
        exact ih rem i' p hp h0

/-- The buy-side closing walk leaves a fully closed position untouched. -/
theorem closeShorts_getElem?_of_rem_zero (key : String) (t : Trade) :
    ∀ (ps : List Position) (rem : Rat) (i : Nat) (p : Position),
      ps[i]? = some p → p.remainingQuantity = 0 →
      ((closeShorts key t rem ps).1)[i]? = some p := by
  intro ps
  induction ps with
  | nil => intro rem i p hp; simp at hp
  | cons q ps ih =>
    intro rem i p hp h0
    cases i with
    | zero =>
      rw [List.getElem?_cons_zero, Option.some_inj] at hp
      subst hp
      have hng : ¬ (instrumentKeyOfPosition q = key ∧ q.netQuantity < 0 ∧
          0 < q.remainingQuantity ∧ 0 < rem) := by
        rintro ⟨-, -, hpos, -⟩
        rw [h0] at hpos
        exact lt_irrefl 0 hpos
      have heq : (closeShorts key t rem (q :: ps)).1 =
          q :: (closeShorts key t rem ps).1 := by
        simp only [closeShorts]
        rw [if_neg hng]
      rw [heq, List.getElem?_cons_zero]
    | succ i' =>
      rw [List.getElem?_cons_succ] at hp
      by_cases hguard : instrumentKeyOfPosition q = key ∧ q.netQuantity < 0 ∧
          0 < q.remainingQuantity ∧ 0 < rem
      · have heq : (closeShorts key t rem (q :: ps)).1 =
            closeShortStep q t (min q.remainingQuantity rem) ::
              (closeShorts key t (rem - min q.remainingQuantity rem) ps).1 := by
          simp only [closeShorts]
          rw [if_pos hguard]
        rw [heq, List.getElem?_cons_succ]
        exact ih (rem - min q.remainingQuantity rem) i' p hp h0
      · have heq : (closeShorts key t rem (q :: ps)).1 =
            q :: (closeShorts key t rem ps).1 := by
          simp only [closeShorts]
          rw [if_neg hguard]
        rw [heq, List.getElem?_cons_succ]
        exact ih rem i' p hp h0

/-- Processing one order leaves every fully closed ledger position exactly
as it was (it is closed against neither side, and new positions are only
appended). -/
theorem processTrade_getElem?_of_rem_zero (rnd : Nat → String) (ps : List Position)
    (t : Trade) (i : Nat) (p : Position) (hp : ps[i]? = some p)
    (h0 : p.remainingQuantity = 0) :
    (processTrade rnd ps t)[i]? = some p := by
  have hi : i < ps.length := by
    obtain ⟨h, -⟩ := List.getElem?_eq_some_iff.mp hp
    exact h
  unfold processTrade
  cases t.tradeType with
  | buy =>
    have hw := closeShorts_getElem?_of_rem_zero (instrumentKeyOfTrade t) t ps t.quantity i p hp h0
    simp only
    split
    · rw [List.getElem?_append_left (by rw [closeShorts_length]; exact hi)]
      exact hw
    · exact hw
  | sell =>
    have hw := closeLongs_getElem?_of_rem_zero (instrumentKeyOfTrade t) t ps t.quantity i p hp h0
    simp only
    split
    · rw [List.getElem?_append_left (by rw [closeLongs_length]; exact hi)]
      exact hw
    · exact hw

/-- Folding further orders leaves every fully closed ledger position
unchanged. -/
theorem processTrades_getElem?_of_rem_zero (rnd : Nat → String) :
    ∀ (ts : List Trade) (ps : List Position) (i : Nat) (p : Position),
      ps[i]? = some p → p.remainingQuantity = 0 →
      (processTrades rnd ps ts)[i]? = some p := by
  intro ts
  induction ts with
  | nil => intro ps i p hp _; exact hp
  | cons t ts ih =>
    intro ps i p hp h0
    exact ih (processTrade rnd ps t) i p (processTrade_getElem?_of_rem_zero rnd ps t i p hp h0) h0

/-- Claim C6: once a position's remaining quantity reaches 0, no
subsequently processed order alters any of its fields (in particular its
realized P&L, net quantity, remaining quantity and max quantity): the
ledger entry after processing any further orders is the identical record. -/
theorem c6_terminal_status (rnd : Nat → String) (ts1 ts2 : List Trade) (i : Nat)
    (p : Position) (h1 : (processTrades rnd [] ts1)[i]? = some p)
    (h0 : p.remainingQuantity = 0) :
    (processTrades rnd [] (ts1 ++ ts2))[i]? = some p := by
  unfold processTrades
  rw [List.foldl_append]
  exact processTrades_getElem?_of_rem_zero rnd ts2 _ i p h1 h0

/-- Claim C6, witness: a position opened and fully closed by the first two
orders is bit-for-bit unchanged after a later order on the same key. -/
theorem c6_witness :
    ∃ p, (processTrades (fun _ => "r") [] c6First)[0]? = some p ∧
      p.remainingQuantity = 0 ∧
      (processTrades (fun _ => "r") [] (c6First ++ c6Later))[0]? = some p := by
  have hmap : (processTrades (fun _ => "r") [] c6First).map (·.remainingQuantity) = [0] := by
    norm_num [processTrades, c6First, mkTrade, processTrade, closeShorts, closeLongs,
      closeShortStep, closeLongStep, newLongPosition, newShortPosition,
      instrumentKeyOfTrade, instrumentKeyOfPosition, InstrumentType.str, freshPositionId]
  have hlen : (processTrades (fun _ => "r") [] c6First).length = 1 := by
    have := congrArg List.length hmap
    simpa using this
  obtain ⟨p, hp⟩ : ∃ x, (processTrades (fun _ => "r") [] c6First)[0]? = some x :=
    ⟨_, List.getElem?_eq_getElem (by omega)⟩
  have h0 : p.remainingQuantity = 0 := by
    have h1 : ((processTrades (fun _ => "r") [] c6First).map (·.remainingQuantity))[0]? =
        some 0 := by
      rw [hmap]
      rfl
    rw [List.getElem?_map, hp] at h1
    simpa using h1
  exact ⟨p, hp, h0, c6_terminal_status (fun _ => "r") c6First c6Later 0 p hp h0⟩

/-- A sell-side closing step preserves position well-formedness. -/
theorem closeLongStep_inv (p : Position) (t : Trade) (q : Rat) (hinv : PosInv p)
    (hq : 0 < q) (hle : q ≤ p.remainingQuantity) : PosInv (closeLongStep p t q) := by
  obtain ⟨hiff, h0, hmax, _⟩ := hinv
  have hrem0 : 0 < p.remainingQuantity := lt_of_lt_of_le hq hle
  have hst : ¬ p.status = .closed := fun hc => absurd (hiff.mp hc) (ne_of_gt hrem0)
  by_cases hz : p.remainingQuantity - q = 0
  · refine ⟨?_, ?_, ?_, ?_⟩ <;> simp [closeLongStep, hz, PosInv]
    exact le_trans h0 hmax
  · refine ⟨?_, ?_, ?_, ?_⟩ <;> simp [closeLongStep, hz, PosInv]
    · exact fun hc => absurd hc hst
    · exact hle
    · linarith

/-- A buy-side closing step preserves position well-formedness. -/
theorem closeShortStep_inv (p : Position) (t : Trade) (q : Rat) (hinv : PosInv p)
    (hq : 0 < q) (hle : q ≤ p.remainingQuantity) : PosInv (closeShortStep p t q) := by
  obtain ⟨hiff, h0, hmax, _⟩ := hinv
  have hrem0 : 0 < p.remainingQuantity := lt_of_lt_of_le hq hle
  have hst : ¬ p.status = .closed := fun hc => absurd (hiff.mp hc) (ne_of_gt hrem0)
  by_cases hz : p.remainingQuantity - q = 0
  · refine ⟨?_, ?_, ?_, ?_⟩ <;> simp [closeShortStep, hz, PosInv]
    exact le_trans h0 hmax
  · refine ⟨?_, ?_, ?_, ?_⟩ <;> simp [closeShortStep, hz, PosInv]
    · exact fun hc => absurd hc hst
    · exact hle
    · linarith

/-- The sell-side closing walk preserves well-formedness of every position. -/
theorem closeLongs_inv (key : String) (t : Trade) :
    ∀ (ps : List Position) (rem : Rat), (∀ p ∈ ps, PosInv p) →
      ∀ p' ∈ (closeLongs key t rem ps).1, PosInv p' := by
  intro ps
  induction ps with
  | nil => intro rem _ p' hp'; simp [closeLongs] at hp'
  | cons q ps ih =>
    intro rem h p' hp'
    by_cases hguard : instrumentKeyOfPosition q = key ∧ 0 < q.netQuantity ∧
        0 < q.remainingQuantity ∧ 0 < rem
    · have heq : (closeLongs key t rem (q :: ps)).1 =
          closeLongStep q t (min q.remainingQuantity rem) ::
            (closeLongs key t (rem - min q.remainingQuantity rem) ps).1 := by
        simp only [closeLongs]
        rw [if_pos hguard]
      rw [heq] at hp'
      rcases List.mem_cons.mp hp' with rfl | hmem
      · exact closeLongStep_inv q t _ (h q (List.mem_cons_self _ _)) (lt_min hguard.2.2.1 hguard.2.2.2)
          (min_le_left _ _)
      · exact ih (rem - min q.remainingQuantity rem)
          (fun p hp => h p (List.mem_cons_of_mem _ hp)) p' hmem
    · have heq : (closeLongs key t rem (q :: ps)).1 =
          q :: (closeLongs key t rem ps).1 := by
        simp only [closeLongs]
        rw [if_neg hguard]
      rw [heq] at hp'
      rcases List.mem_cons.mp hp' with rfl | hmem
      · exact h p' (List.mem_cons_self _ _)
      · exact ih rem (fun p hp => h p (List.mem_cons_of_mem _ hp)) p' hmem

/-- The buy-side closing walk preserves well-formedness of every position. -/
theorem closeShorts_inv (key : String) (t : Trade) :
    ∀ (ps : List Position) (rem : Rat), (∀ p ∈ ps, PosInv p) →
      ∀ p' ∈ (closeShorts key t rem ps).1, PosInv p' := by
  intro ps
  induction ps with
  | nil => intro rem _ p' hp'; simp [closeShorts] at hp'
  | cons q ps ih =>
    intro rem h p' hp'
    by_cases hguard : instrumentKeyOfPosition q = key ∧ q.netQuantity < 0 ∧
        0 < q.remainingQuantity ∧ 0 < rem
    · have heq : (closeShorts key t rem (q :: ps)).1 =
          closeShortStep q t (min q.remainingQuantity rem) ::
            (closeShorts key t (rem - min q.remainingQuantity rem) ps).1 := by
        simp only [closeShorts]
        rw [if_pos hguard]
      rw [heq] at hp'
      rcases List.mem_cons.mp hp' with rfl | hmem
      · exact closeShortStep_inv q t _ (h q (List.mem_cons_self _ _)) (lt_min hguard.2.2.1 hguard.2.2.2)
          (min_le_left _ _)
      · exact ih (rem - min q.remainingQuantity rem)
          (fun p hp => h p (List.mem_cons_of_mem _ hp)) p' hmem
    · have heq : (closeShorts key t rem (q :: ps)).1 =
          q :: (closeShorts key t rem ps).1 := by
        simp only [closeShorts]
        rw [if_neg hguard]
      rw [heq] at hp'
      rcases List.mem_cons.mp hp' with rfl | hmem
      · exact h p' (List.mem_cons_self _ _)
      · exact ih rem (fun p hp => h p (List.mem_cons_of_mem _ hp)) p' hmem

/-- A freshly opened long position is well-formed. -/
theorem newLongPosition_inv (pid : String) (t : Trade) (rem : Rat) (h : 0 < rem) :
    PosInv (newLongPosition pid t rem) := by
  refine ⟨?_, le_of_lt h, le_refl _, Or.inl rfl⟩
  constructor
  · intro hc
    simp [newLongPosition] at hc
  · intro hr
    exact absurd hr (ne_of_gt h)

/-- A freshly opened short position is well-formed. -/
theorem newShortPosition_inv (pid : String) (t : Trade) (rem : Rat) (h : 0 < rem) :
    PosInv (newShortPosition pid t rem) := by
  refine ⟨?_, le_of_lt h, le_refl _, Or.inr rfl⟩
  constructor
  · intro hc
    simp [newShortPosition] at hc
  · intro hr
    exact absurd hr (ne_of_gt h)

/-- The unfolding of `processTrade` on a buy order. -/
theorem processTrade_buy (rnd : Nat → String) (ps : List Position) (t : Trade)
    (h : t.tradeType = .buy) :
    processTrade rnd ps t =
      if 0 < (closeShorts (instrumentKeyOfTrade t) t t.quantity ps).2 then
        (closeShorts (instrumentKeyOfTrade t) t t.quantity ps).1 ++
          [newLongPosition (freshPositionId rnd (instrumentKeyOfTrade t) t ps.length) t
            (closeShorts (instrumentKeyOfTrade t) t t.quantity ps).2]
      else (closeShorts (instrumentKeyOfTrade t) t t.quantity ps).1 := by
  unfold processTrade
  rw [h]

/-- The unfolding of `processTrade` on a sell order. -/
theorem processTrade_sell (rnd : Nat → String) (ps : List Position) (t : Trade)
    (h : t.tradeType = .sell) :
    processTrade rnd ps t =
      if 0 < (closeLongs (instrumentKeyOfTrade t) t t.quantity ps).2 then
        (closeLongs (instrumentKeyOfTrade t) t t.quantity ps).1 ++
          [newShortPosition (freshPositionId rnd (instrumentKeyOfTrade t) t ps.length) t
            (closeLongs (instrumentKeyOfTrade t) t t.quantity ps).2]
      else (closeLongs (instrumentKeyOfTrade t) t t.quantity ps).1 := by
  unfold processTrade
  rw [h]

/-- Processing one order preserves well-formedness of every ledger
position. -/
theorem processTrade_inv (rnd : Nat → String) (ps : List Position) (t : Trade)
    (h : ∀ p ∈ ps, PosInv p) : ∀ p' ∈ processTrade rnd ps t, PosInv p' := by
  intro p' hp'
  cases htt : t.tradeType with
  | buy =>
    rw [processTrade_buy rnd ps t htt] at hp'
    split at hp'
    · next hpos =>
      rcases List.mem_append.mp hp' with hmem | hmem
      · exact closeShorts_inv _ t ps t.quantity h p' hmem
      · rw [List.mem_singleton] at hmem
        subst hmem
        exact newLongPosition_inv _ t _ hpos
    · exact closeShorts_inv _ t ps t.quantity h p' hp'
  | sell =>
    rw [processTrade_sell rnd ps t htt] at hp'
    split at hp'
    · next hpos =>
      rcases List.mem_append.mp hp' with hmem | hmem
      · exact closeLongs_inv _ t ps t.quantity h p' hmem
      · rw [List.mem_singleton] at hmem
        subst hmem
        exact newShortPosition_inv _ t _ hpos
    · exact closeLongs_inv _ t ps t.quantity h p' hp'

/-- Folding orders preserves well-formedness of every ledger position. -/
theorem processTrades_inv (rnd : Nat → String) :
    ∀ (ts : List Trade) (ps : List Position), (∀ p ∈ ps, PosInv p) →
      ∀ p' ∈ processTrades rnd ps ts, PosInv p' := by
  intro ts
  induction ts with
  | nil => intro ps h p' hp'; exact h p' hp'
  | cons t ts ih =>
    intro ps h p' hp'
    exact ih (processTrade rnd ps t) (processTrade_inv rnd ps t h) p' hp'

/-- Every position the engine ever creates is well-formed. -/
theorem calculatePositions_inv (rnd : Nat → String) (trades : List Trade) :
    ∀ p ∈ calculatePositions rnd trades, PosInv p := by
  intro p hp
  exact processTrades_inv rnd (sortTrades trades) [] (by simp) p hp

/-- A sell-side closing step never touches the maximum quantity, entry
price or open time of a position. -/
theorem closeLongStep_fields (p : Position) (t : Trade) (q : Rat) :
    (closeLongStep p t q).maxQuantity = p.maxQuantity ∧
    (closeLongStep p t q).entryPrice = p.entryPrice ∧
    (closeLongStep p t q).openTime = p.openTime := by
  by_cases h : p.remainingQuantity - q = 0 <;> simp [closeLongStep, h]

/-- A buy-side closing step never touches the maximum quantity, entry
price or open time of a position. -/
theorem closeShortStep_fields (p : Position) (t : Trade) (q : Rat) :
    (closeShortStep p t q).maxQuantity = p.maxQuantity ∧
    (closeShortStep p t q).entryPrice = p.entryPrice ∧
    (closeShortStep p t q).openTime = p.openTime := by
  by_cases h : p.remainingQuantity - q = 0 <;> simp [closeShortStep, h]

/-- The sell-side closing walk preserves each position's maximum quantity,
entry price and open time, and never increases its remaining quantity. -/
theorem closeLongs_getElem?_fields (key : String) (t : Trade) :
    ∀ (ps : List Position) (rem : Rat) (i : Nat) (p p' : Position),
      ps[i]? = some p → ((closeLongs key t rem ps).1)[i]? = some p' →
      p'.maxQuantity = p.maxQuantity ∧ p'.entryPrice = p.entryPrice ∧
      p'.openTime = p.openTime ∧ p'.remainingQuantity ≤ p.remainingQuantity := by
  intro ps
  induction ps with
  | nil => intro rem i p p' hp; simp at hp
  | cons q ps ih =>
    intro rem i p p' hp hp'
    by_cases hguard : instrumentKeyOfPosition q = key ∧ 0 < q.netQuantity ∧
        0 < q.remainingQuantity ∧ 0 < rem
    · have heq : (closeLongs key t rem (q :: ps)).1 =
          closeLongStep q t (min q.remainingQuantity rem) ::
            (closeLongs key t (rem - min q.remainingQuantity rem) ps).1 := by
        simp only [closeLongs]
        rw [if_pos hguard]
      rw [heq] at hp'
      cases i with
      | zero =>
        rw [List.getElem?_cons_zero, Option.some_inj] at hp hp'
        subst hp
        subst hp'
        obtain ⟨f1, f2, f3⟩ := closeLongStep_fields q t (min q.remainingQuantity rem)
        refine ⟨f1, f2, f3, ?_⟩
        rw [closeLongStep_remainingQuantity]
        have : 0 ≤ min q.remainingQuantity rem :=
          le_min (le_of_lt hguard.2.2.1) (le_of_lt hguard.2.2.2)
        linarith
      | succ i' =>
        rw [List.getElem?_cons_succ] at hp hp'
        exact ih (rem - min q.remainingQuantity rem) i' p p' hp hp'
    · have heq : (closeLongs key t rem (q :: ps)).1 =
          q :: (closeLongs key t rem ps).1 := by
        simp only [closeLongs]
        rw [if_neg hguard]
      rw [heq] at hp'
      cases i with
      | zero =>
        rw [List.getElem?_cons_zero, Option.some_inj] at hp hp'
        subst hp
        subst hp'
        exact ⟨rfl, rfl, rfl, le_refl _⟩
      | succ i' =>
        rw [List.getElem?_cons_succ] at hp hp'
        exact ih rem i' p p' hp hp'

/-- The buy-side closing walk preserves each position's maximum quantity,
entry price and open time, and never increases its remaining quantity. -/
theorem closeShorts_getElem?_fields (key : String) (t : Trade) :
    ∀ (ps : List Position) (rem : Rat) (i : Nat) (p p' : Position),
      ps[i]? = some p → ((closeShorts key t rem ps).1)[i]? = some p' →
      p'.maxQuantity = p.maxQuantity ∧ p'.entryPrice = p.entryPrice ∧
      p'.openTime = p.openTime ∧ p'.remainingQuantity ≤ p.remainingQuantity := by
  intro ps
  induction ps with
  | nil => intro rem i p p' hp; simp at hp
  | cons q ps ih =>
    intro rem i p p' hp hp'
    by_cases hguard : instrumentKeyOfPosition q = key ∧ q.netQuantity < 0 ∧
        0 < q.remainingQuantity ∧ 0 < rem
    · have heq : (closeShorts key t rem (q :: ps)).1 =
          closeShortStep q t (min q.remainingQuantity rem) ::
            (closeShorts key t (rem - min q.remainingQuantity rem) ps).1 := by
        simp only [closeShorts]
        rw [if_pos hguard]
      rw [heq] at hp'
      cases i with
      | zero =>
        rw [List.getElem?_cons_zero, Option.some_inj] at hp hp'
        subst hp
        subst hp'
        obtain ⟨f1, f2, f3⟩ := closeShortStep_fields q t (min q.remainingQuantity rem)
        refine ⟨f1, f2, f3, ?_⟩
        rw [closeShortStep_remainingQuantity]
        have : 0 ≤ min q.remainingQuantity rem :=
          le_min (le_of_lt hguard.2.2.1) (le_of_lt hguard.2.2.2)
        linarith
      | succ i' =>
        rw [List.getElem?_cons_succ] at hp hp'
        exact ih (rem - min q.remainingQuantity rem) i' p p' hp hp'
    · have heq : (closeShorts key t rem (q :: ps)).1 =
          q :: (closeShorts key t rem ps).1 := by
        simp only [closeShorts]
        rw [if_neg hguard]
      rw [heq] at hp'
      cases i with
      | zero =>
        rw [List.getElem?_cons_zero, Option.some_inj] at hp hp'
        subst hp
        subst hp'
        exact ⟨rfl, rfl, rfl, le_refl _⟩
      | succ i' =>
        rw [List.getElem?_cons_succ] at hp hp'
        exact ih rem i' p p' hp hp'

/-- Processing an order preserves each existing ledger position's maximum
quantity, entry price and open time, and never increases its remaining
quantity: a later same-side order never enlarges an existing position. -/
theorem processTrade_getElem?_fields (rnd : Nat → String) (ps : List Position) (t : Trade)
    (i : Nat) (p p' : Position) (hp : ps[i]? = some p)
    (hp' : (processTrade rnd ps t)[i]? = some p') :
    p'.maxQuantity = p.maxQuantity ∧ p'.entryPrice = p.entryPrice ∧
    p'.openTime = p.openTime ∧ p'.remainingQuantity ≤ p.remainingQuantity := by
  obtain ⟨hi, -⟩ := List.getElem?_eq_some_iff.mp hp
  cases htt : t.tradeType with
  | buy =>
    rw [processTrade_buy rnd ps t htt] at hp'
    split at hp'
    · rw [List.getElem?_append_left (by rw [closeShorts_length]; exact hi)] at hp'
      exact closeShorts_getElem?_fields _ t ps t.quantity i p p' hp hp'
    · exact closeShorts_getElem?_fields _ t ps t.quantity i p p' hp hp'
  | sell =>
    rw [processTrade_sell rnd ps t htt] at hp'
    split at hp'
    · rw [List.getElem?_append_left (by rw [closeLongs_length]; exact hi)] at hp'
      exact closeLongs_getElem?_fields _ t ps t.quantity i p p' hp hp'
    · exact closeLongs_getElem?_fields _ t ps t.quantity i p p' hp hp'

/-- Processing an order never shrinks the ledger: existing positions stay,
a new position is (only) appended. -/
theorem processTrade_length_ge (rnd : Nat → String) (ps : List Position) (t : Trade) :
    ps.length ≤ (processTrade rnd ps t).length := by
  cases htt : t.tradeType with
  | buy =>
    rw [processTrade_buy rnd ps t htt]
    split
    · simp only [List.length_append, closeShorts_length, List.length_singleton]
      omega
    · rw [closeShorts_length]
  | sell =>
    rw [processTrade_sell rnd ps t htt]
    split
    · simp only [List.length_append, closeLongs_length, List.length_singleton]
      omega
    · rw [closeLongs_length]

/-- Claim C10: every ledger position satisfies — status is `closed` iff the
remaining quantity is 0; the net quantity is plus or minus the remaining
quantity (so equals it for a long, its negation for a short, and 0 once
closed); the remaining quantity sits between 0 and the maximum quantity;
and processing a further order never alters an existing position's maximum
quantity, entry price or open time and never increases its remaining
quantity — a later same-side order only ever appends a new position. -/
theorem c10_position_invariants (rnd : Nat → String) (trades : List Trade) :
    (∀ p ∈ calculatePositions rnd trades,
      (p.status = .closed ↔ p.remainingQuantity = 0) ∧
      (p.netQuantity = p.remainingQuantity ∨ p.netQuantity = -p.remainingQuantity) ∧
      (p.status = .closed → p.netQuantity = 0) ∧
      0 ≤ p.remainingQuantity ∧ p.remainingQuantity ≤ p.maxQuantity) ∧
    (∀ (ps : List Position) (t : Trade) (i : Nat) (p p' : Position),
      ps[i]? = some p → (processTrade rnd ps t)[i]? = some p' →
      p'.maxQuantity = p.maxQuantity ∧ p'.entryPrice = p.entryPrice ∧
      p'.openTime = p.openTime ∧ p'.remainingQuantity ≤ p.remainingQuantity) ∧
    (∀ (ps : List Position) (t : Trade), ps.length ≤ (processTrade rnd ps t).length) := by
  refine ⟨?_, ?_, ?_⟩
  · intro p hp
    obtain ⟨hiff, h0, hmax, hnet⟩ := calculatePositions_inv rnd trades p hp
    refine ⟨hiff, hnet, ?_, h0, hmax⟩
    intro hc
    rcases hnet with h | h
    · rw [h, hiff.mp hc]
    · rw [h, hiff.mp hc, neg_zero]
  · intro ps t i p p' hp hp'
    exact processTrade_getElem?_fields rnd ps t i p p' hp hp'
  · intro ps t
    exact processTrade_length_ge rnd ps t

/-- Claim C10, witness: on the concrete FIFO scenario, the first created
position is closed with net quantity 0 and nonnegative remaining quantity,
by the invariant theorem. -/
theorem c10_witness :
    ∃ p, (calculatePositions (fun _ => "r") c1Trades)[0]? = some p ∧
      p.status = .closed ∧ p.netQuantity = 0 ∧
      0 ≤ p.remainingQuantity ∧ p.remainingQuantity ≤ p.maxQuantity := by
  have hmap : (calculatePositions (fun _ => "r") c1Trades).map (·.remainingQuantity) =
      [0, 3] := by
    norm_num [calculatePositions, processTrades, sortTrades, c1Trades, mkTrade,
      List.insertionSort, List.orderedInsert, processTrade, closeShorts, closeLongs,
      closeShortStep, closeLongStep, newLongPosition, newShortPosition,
      instrumentKeyOfTrade, instrumentKeyOfPosition, InstrumentType.str, freshPositionId]
  have hlen : (calculatePositions (fun _ => "r") c1Trades).length = 2 := by
    have := congrArg List.length hmap
    simpa using this
  obtain ⟨p, hp⟩ : ∃ x, (calculatePositions (fun _ => "r") c1Trades)[0]? = some x :=
    ⟨_, List.getElem?_eq_getElem (by omega)⟩
  have h0 : p.remainingQuantity = 0 := by
    have h1 : ((calculatePositions (fun _ => "r") c1Trades).map (·.remainingQuantity))[0]? =
        some 0 := by
      rw [hmap]
      rfl
    rw [List.getElem?_map, hp] at h1
    simpa using h1
  obtain ⟨hiff, _, hcz, hnn, hmx⟩ :=
    (c10_position_invariants (fun _ => "r") c1Trades).1 p (List.getElem?_mem hp)
  have hcl : p.status = .closed := hiff.mpr h0
  exact ⟨p, hp, hcl, hcz hcl, hnn, hmx⟩

/-- The signed-net-quantity sum over a ledger, cons form. -/
theorem netSumKey_cons (k : String) (p : Position) (ps : List Position) :
    netSumKey k (p :: ps) =
      (if instrumentKeyOfPosition p = k then p.netQuantity else 0) + netSumKey k ps := by
  unfold netSumKey
  rw [List.filter_cons]
  by_cases h : instrumentKeyOfPosition p = k
  · simp [h]
  · simp [h]

/-- The signed-net-quantity sum over a ledger, append form. -/
theorem netSumKey_append (k : String) (l1 l2 : List Position) :
    netSumKey k (l1 ++ l2) = netSumKey k l1 + netSumKey k l2 := by
  unfold netSumKey
  rw [List.filter_append, List.map_append, List.sum_append]

/-- The signed order-quantity sum, cons form. -/
theorem signedSumKey_cons (k : String) (t : Trade) (ts : List Trade) :
    signedSumKey k (t :: ts) =
      (if instrumentKeyOfTrade t = k then signedQty t else 0) + signedSumKey k ts := by
  unfold signedSumKey
  rw [List.filter_cons]
  by_cases h : instrumentKeyOfTrade t = k
  · simp [h]
  · simp [h]

/-- A closing step does not change the instrument-key fields. -/
theorem closeLongStep_key (p : Position) (t : Trade) (q : Rat) :
    instrumentKeyOfPosition (closeLongStep p t q) = instrumentKeyOfPosition p := by
  by_cases h : p.remainingQuantity - q = 0 <;>
    simp [closeLongStep, instrumentKeyOfPosition, h]

/-- A closing step does not change the instrument-key fields. -/
theorem closeShortStep_key (p : Position) (t : Trade) (q : Rat) :
    instrumentKeyOfPosition (closeShortStep p t q) = instrumentKeyOfPosition p := by
  by_cases h : p.remainingQuantity - q = 0 <;>
    simp [closeShortStep, instrumentKeyOfPosition, h]

/-- After a sell-side closing step, the net quantity is the new remaining
quantity (0 on full close falls out of the same formula). -/
theorem closeLongStep_netQuantity (p : Position) (t : Trade) (q : Rat) :
    (closeLongStep p t q).netQuantity = p.remainingQuantity - q := by
  by_cases h : p.remainingQuantity - q = 0
  · simp [closeLongStep, h]
  · simp [closeLongStep, h]

/-- After a buy-side closing step, the net quantity is minus the new
remaining quantity. -/
theorem closeShortStep_netQuantity (p : Position) (t : Trade) (q : Rat) :
    (closeShortStep p t q).netQuantity = -(p.remainingQuantity - q) := by
  by_cases h : p.remainingQuantity - q = 0
  · simp [closeShortStep, h]
  · simp [closeShortStep, h]

/-- Quantity bookkeeping of the buy-side closing walk: the unmatched
remainder stays between 0 and the order quantity, and the key's
signed-net-quantity sum rises by exactly the closed amount. -/
theorem closeShorts_netSum (key : String) (t : Trade) (k : String) :
    ∀ (ps : List Position) (rem : Rat), (∀ p ∈ ps, PosInv p) → 0 ≤ rem →
      0 ≤ (closeShorts key t rem ps).2 ∧ (closeShorts key t rem ps).2 ≤ rem ∧
      netSumKey k (closeShorts key t rem ps).1 =
        netSumKey k ps + (if key = k then rem - (closeShorts key t rem ps).2 else 0) := by
  intro ps
  induction ps with
  | nil =>
    intro rem _ hr
    refine ⟨hr, le_refl _, ?_⟩
    by_cases h : key = k <;> simp [closeShorts, h]
  | cons q ps ih =>
    intro rem hinv hr
    have hinv' : ∀ p ∈ ps, PosInv p := fun p hp => hinv p (List.mem_cons_of_mem _ hp)
    by_cases hguard : instrumentKeyOfPosition q = key ∧ q.netQuantity < 0 ∧
        0 < q.remainingQuantity ∧ 0 < rem
    · have hqnet : q.netQuantity = -q.remainingQuantity := by
        obtain ⟨-, -, -, hnet⟩ := hinv q (List.mem_cons_self _ _)
        rcases hnet with h | h
        · exfalso
          rw [h] at hguard
          linarith [hguard.2.1, hguard.2.2.1]
        · exact h
      have hm0 : 0 ≤ min q.remainingQuantity rem :=
        le_min (le_of_lt hguard.2.2.1) (le_of_lt hguard.2.2.2)
      have hmr : min q.remainingQuantity rem ≤ rem := min_le_right _ _
      have heq : closeShorts key t rem (q :: ps) =
          (closeShortStep q t (min q.remainingQuantity rem) ::
            (closeShorts key t (rem - min q.remainingQuantity rem) ps).1,
           (closeShorts key t (rem - min q.remainingQuantity rem) ps).2) := by
        simp only [closeShorts]
        rw [if_pos hguard]
      obtain ⟨ih1, ih2, ih3⟩ := ih (rem - min q.remainingQuantity rem) hinv' (by linarith)
      rw [heq]
      refine ⟨ih1, by linarith, ?_⟩
      rw [netSumKey_cons, netSumKey_cons, closeShortStep_key, closeShortStep_netQuantity, ih3]
      by_cases hk : instrumentKeyOfPosition q = k
      · have hkk : key = k := hguard.1 ▸ hk
        simp only [if_pos hk, if_pos hkk, hqnet]
        ring
      · have hkk : ¬ key = k := fun h => hk (hguard.1.trans h)
        simp only [if_neg hk, if_neg hkk]
        ring
    · have heq : closeShorts key t rem (q :: ps) =
          (q :: (closeShorts key t rem ps).1, (closeShorts key t rem ps).2) := by
        simp only [closeShorts]
        rw [if_neg hguard]
      obtain ⟨ih1, ih2, ih3⟩ := ih rem hinv' hr
      rw [heq]
      refine ⟨ih1, ih2, ?_⟩
      rw [netSumKey_cons, netSumKey_cons, ih3]
      ring

/-- Quantity bookkeeping of the sell-side closing walk: the key's
signed-net-quantity sum falls by exactly the closed amount. -/
theorem closeLongs_netSum (key : String) (t : Trade) (k : String) :
    ∀ (ps : List Position) (rem : Rat), (∀ p ∈ ps, PosInv p) → 0 ≤ rem →
      0 ≤ (closeLongs key t rem ps).2 ∧ (closeLongs key t rem ps).2 ≤ rem ∧
      netSumKey k (closeLongs key t rem ps).1 =
        netSumKey k ps - (if key = k then rem - (closeLongs key t rem ps).2 else 0) := by
  intro ps
  induction ps with
  | nil =>
    intro rem _ hr
    refine ⟨hr, le_refl _, ?_⟩
    by_cases h : key = k <;> simp [closeLongs, h]
  | cons q ps ih =>
    intro rem hinv hr
    have hinv' : ∀ p ∈ ps, PosInv p := fun p hp => hinv p (List.mem_cons_of_mem _ hp)
    by_cases hguard : instrumentKeyOfPosition q = key ∧ 0 < q.netQuantity ∧
        0 < q.remainingQuantity ∧ 0 < rem
    · have hqnet : q.netQuantity = q.remainingQuantity := by
        obtain ⟨-, -, -, hnet⟩ := hinv q (List.mem_cons_self _ _)
        rcases hnet with h | h
        · exact h
        · exfalso
          rw [h] at hguard
          linarith [hguard.2.1, hguard.2.2.1]
      have hm0 : 0 ≤ min q.remainingQuantity rem :=
        le_min (le_of_lt hguard.2.2.1) (le_of_lt hguard.2.2.2)
      have hmr : min q.remainingQuantity rem ≤ rem := min_le_right _ _
      have heq : closeLongs key t rem (q :: ps) =
          (closeLongStep q t (min q.remainingQuantity rem) ::
            (closeLongs key t (rem - min q.remainingQuantity rem) ps).1,
           (closeLongs key t (rem - min q.remainingQuantity rem) ps).2) := by
        simp only [closeLongs]
        rw [if_pos hguard]
      obtain ⟨ih1, ih2, ih3⟩ := ih (rem - min q.remainingQuantity rem) hinv' (by linarith)
      rw [heq]
      refine ⟨ih1, by linarith, ?_⟩
      rw [netSumKey_cons, netSumKey_cons, closeLongStep_key, closeLongStep_netQuantity, ih3]
      by_cases hk : instrumentKeyOfPosition q = k
      · have hkk : key = k := hguard.1 ▸ hk
        simp only [if_pos hk, if_pos hkk, hqnet]
        ring
      · have hkk : ¬ key = k := fun h => hk (hguard.1.trans h)
        simp only [if_neg hk, if_neg hkk]
        ring
    · have heq : closeLongs key t rem (q :: ps) =
          (q :: (closeLongs key t rem ps).1, (closeLongs key t rem ps).2) := by
        simp only [closeLongs]
        rw [if_neg hguard]
      obtain ⟨ih1, ih2, ih3⟩ := ih rem hinv' hr
      rw [heq]
      refine ⟨ih1, ih2, ?_⟩
      rw [netSumKey_cons, netSumKey_cons, ih3]
      ring

/-- A new position's key fields equal the opening trade's key. -/
theorem newLongPosition_key (pid : String) (t : Trade) (r : Rat) :
    instrumentKeyOfPosition (newLongPosition pid t r) = instrumentKeyOfTrade t := rfl

/-- A new position's key fields equal the opening trade's key. -/
theorem newShortPosition_key (pid : String) (t : Trade) (r : Rat) :
    instrumentKeyOfPosition (newShortPosition pid t r) = instrumentKeyOfTrade t := rfl

/-- Processing one order of nonnegative quantity moves the key's
signed-net-quantity sum by exactly the order's signed quantity. -/
theorem processTrade_netSum (rnd : Nat → String) (ps : List Position) (t : Trade) (k : String)
    (hinv : ∀ p ∈ ps, PosInv p) (hq : 0 ≤ t.quantity) :
    netSumKey k (processTrade rnd ps t) =
      netSumKey k ps + (if instrumentKeyOfTrade t = k then signedQty t else 0) := by
  cases htt : t.tradeType with
  | buy =>
    have hsq : signedQty t = t.quantity := by simp [signedQty, htt]
    obtain ⟨h1, h2, h3⟩ :=
      closeShorts_netSum (instrumentKeyOfTrade t) t k ps t.quantity hinv hq
    rw [processTrade_buy rnd ps t htt, hsq]
    split
    · next hpos =>
      rw [netSumKey_append, h3, netSumKey_cons, newLongPosition_key]
      by_cases hk : instrumentKeyOfTrade t = k
      · rw [if_pos hk, if_pos hk, if_pos hk]
        simp [netSumKey, newLongPosition]
        ring
      · rw [if_neg hk, if_neg hk, if_neg hk]
        simp [netSumKey]
    · next hpos =>
      have hz : (closeShorts (instrumentKeyOfTrade t) t t.quantity ps).2 = 0 :=
        le_antisymm (not_lt.mp hpos) h1
      rw [h3, hz]
      simp
  | sell =>
    have hsq : signedQty t = -t.quantity := by simp [signedQty, htt]
    obtain ⟨h1, h2, h3⟩ :=
      closeLongs_netSum (instrumentKeyOfTrade t) t k ps t.quantity hinv hq
    rw [processTrade_sell rnd ps t htt, hsq]
    split
    · next hpos =>
      rw [netSumKey_append, h3, netSumKey_cons, newShortPosition_key]
      by_cases hk : instrumentKeyOfTrade t = k
      · rw [if_pos hk, if_pos hk, if_pos hk]
        simp [netSumKey, newShortPosition]
        ring
      · rw [if_neg hk, if_neg hk, if_neg hk]
        simp [netSumKey]
    · next hpos =>
      have hz : (closeLongs (instrumentKeyOfTrade t) t t.quantity ps).2 = 0 :=
        le_antisymm (not_lt.mp hpos) h1
      rw [h3, hz]
      by_cases hk : instrumentKeyOfTrade t = k <;> simp [hk] <;> ring

/-- Folding orders of nonnegative quantity moves each key's
signed-net-quantity sum by exactly the orders' signed quantities. -/
theorem processTrades_netSum (rnd : Nat → String) (k : String) :
    ∀ (ts : List Trade) (ps : List Position), (∀ p ∈ ps, PosInv p) →
      (∀ t ∈ ts, 0 ≤ t.quantity) →
      netSumKey k (processTrades rnd ps ts) = netSumKey k ps + signedSumKey k ts := by
  intro ts
  induction ts with
  | nil =>
    intro ps _ _
    simp [processTrades, signedSumKey]
  | cons t ts ih =>
    intro ps hinv hq
    have step := processTrade_netSum rnd ps t k hinv (hq t (List.mem_cons_self _ _))
    have rest := ih (processTrade rnd ps t) (processTrade_inv rnd ps t hinv)
      (fun u hu => hq u (List.mem_cons_of_mem _ hu))
    calc netSumKey k (processTrades rnd ps (t :: ts))
        = netSumKey k (processTrades rnd (processTrade rnd ps t) ts) := rfl
      _ = netSumKey k (processTrade rnd ps t) + signedSumKey k ts := rest
      _ = netSumKey k ps + (if instrumentKeyOfTrade t = k then signedQty t else 0) +
            signedSumKey k ts := by rw [step]
      _ = netSumKey k ps + signedSumKey k (t :: ts) := by rw [signedSumKey_cons]; ring

/-- Claim C5: quantity conservation — for every instrument key and every
prefix of the orders in execution-time order (orders have nonnegative
quantity per the input contract; merged orders may be zero), the sum of
the orders' signed quantities equals the sum of the signed net quantities
of all positions for that key at that point. -/
theorem c5_quantity_conservation (rnd : Nat → String) (trades : List Trade) (k : String)
    (n : Nat) (hq : ∀ t ∈ trades, 0 ≤ t.quantity) :
    netSumKey k (processTrades rnd [] ((sortTrades trades).take n)) =
      signedSumKey k ((sortTrades trades).take n) := by
  have hq' : ∀ t ∈ (sortTrades trades).take n, 0 ≤ t.quantity := by
    intro t ht
    apply hq
    have hmem : t ∈ sortTrades trades := List.take_subset n (sortTrades trades) ht
    exact ((List.perm_insertionSort _ trades).mem_iff).mp hmem
  have h := processTrades_netSum rnd k ((sortTrades trades).take n) [] (by simp) hq'
  simpa [netSumKey] using h

/-- Claim C5, witness: on the concrete FIFO scenario's full prefix, both
sums for its key evaluate to 3 (= 10 + 5 − 12). -/
theorem c5_witness :
    netSumKey c1Key (processTrades (fun _ => "r") [] ((sortTrades c1Trades).take 3)) =
      signedSumKey c1Key ((sortTrades c1Trades).take 3) ∧
    signedSumKey c1Key ((sortTrades c1Trades).take 3) = 3 := by
  constructor
  · refine c5_quantity_conservation (fun _ => "r") c1Trades c1Key 3 ?_
    intro t ht
    simp [c1Trades, mkTrade] at ht
    rcases ht with rfl | rfl | rfl <;> norm_num [mkTrade]
  · norm_num [signedSumKey, sortTrades, c1Trades, mkTrade, signedQty,
      instrumentKeyOfTrade, c1Key, c1Sell, InstrumentType.str,
      List.insertionSort, List.orderedInsert]

/-- Win/loss attribution does not change a day record's date. -/
theorem addWinLoss_date (r : EnhancedDailyPnL) (p : Position) :
    (addWinLoss r p).date = r.date := by
  by_cases h : 0 < p.realizedPnL <;> simp [addWinLoss, h]

/-- Fusing a fold of per-step maps into one map of per-record folds. -/
theorem foldl_map_fusion {α β : Type} (f : α → β → β) :
    ∀ (l : List α) (m : List β),
      l.foldl (fun acc x => acc.map (fun r => f x r)) m =
        m.map (fun r => l.foldl (fun r x => f x r) r) := by
  intro l
  induction l with
  | nil => intro m; simp
  | cons x l ih =>
    intro m
    rw [List.foldl_cons, ih, List.map_map]
    simp [Function.comp]

/-- The per-record effect of folding date-keyed point updates over an
indexed, duplicate-free date list: the record is updated at most once, and
with the `A`-variant exactly when its date is the last of the list. -/
theorem enumFrom_foldl_pointwise (A B : EnhancedDailyPnL → EnhancedDailyPnL)
    (g : EnhancedDailyPnL → Nat × Int → EnhancedDailyPnL) (n : Nat)
    (hA : ∀ r, (A r).date = r.date) (hB : ∀ r, (B r).date = r.date)
    (hg : ∀ r x, g r x = if r.date = x.2 then (if x.1 = n - 1 then A r else B r) else r) :
    ∀ (l : List Int) (k0 : Nat), l.Nodup → k0 + l.length = n → ∀ r,
      (List.enumFrom k0 l).foldl g r =
        if r.date ∈ l then (if l.getLast? = some r.date then A r else B r) else r := by
  intro l
  induction l with
  | nil =>
    intro k0 _ _ r
    simp
  | cons d ds ih =>
    intro k0 hnd hlen r
    have hnd' : ds.Nodup := hnd.of_cons
    have hdnotin : d ∉ ds := (List.nodup_cons.mp hnd).1
    have hlen' : (k0 + 1) + ds.length = n := by
      simp only [List.length_cons] at hlen
      omega
    rw [List.enumFrom_cons, List.foldl_cons, hg]
    dsimp only
    by_cases hd : r.date = d
    · rw [if_pos hd]
      by_cases hk : k0 = n - 1
      · have hde : ds = [] := by
          cases ds with
          | nil => rfl
          | cons d2 ds2 =>
            exfalso
            simp only [List.length_cons] at hlen'
            omega
        subst hde
        rw [if_pos hk]
        simp only [List.enumFrom_nil, List.foldl_nil]
        rw [if_pos (by rw [hd]; exact List.mem_singleton_self d), if_pos (by simp [hd])]
      · have hds_ne : ds ≠ [] := by
          intro hde
          subst hde
          simp only [List.length_nil] at hlen'
          omega
        rw [if_neg hk, ih (k0 + 1) hnd' hlen' (B r)]
        rw [if_neg (by rw [hB, hd]; exact hdnotin)]
        rw [if_pos (by rw [hd]; exact List.mem_cons_self _ _)]
        rw [if_neg ?hlast]
        case hlast =>
          intro hlast
          apply hdnotin
          rw [hd] at hlast
          cases ds with
          | nil => exact absurd rfl hds_ne
          | cons d2 ds2 =>
            rw [List.getLast?_cons_cons] at hlast
            exact List.mem_of_mem_getLast? (by simp [hlast])
    · rw [if_neg hd, ih (k0 + 1) hnd' hlen' r]
      by_cases hmem : r.date ∈ ds
      · rw [if_pos hmem, if_pos (List.mem_cons_of_mem _ hmem)]
        cases ds with
        | nil => simp at hmem
        | cons d2 ds2 => rw [List.getLast?_cons_cons]
      · rw [if_neg hmem, if_neg ?hmem2]
        case hmem2 =>
          intro hc
          rcases List.mem_cons.mp hc with h | h
          · exact hd h
          · exact hmem h

/-- In a sorted list, every member is at most the last element. -/
theorem sorted_le_getLast? :
    ∀ {l : List Int}, List.Sorted (· ≤ ·) l →
      ∀ d ∈ l, ∀ dl, l.getLast? = some dl → d ≤ dl := by
  intro l
  induction l with
  | nil => intro _ d hd; simp at hd
  | cons a l ih =>
    intro hs d hd dl hlast
    cases l with
    | nil =>
      simp only [List.mem_singleton] at hd
      simp only [List.getLast?_singleton, Option.some_inj] at hlast
      rw [hd, ← hlast]
    | cons b l2 =>
      rw [List.getLast?_cons_cons] at hlast
      rcases List.mem_cons.mp hd with rfl | hd2
      · have hdl_mem : dl ∈ b :: l2 := List.mem_of_mem_getLast? (by simp [hlast])
        exact (List.sorted_cons.mp hs).1 dl hdl_mem
      · exact ih (List.sorted_cons.mp hs).2 d hd2 dl hlast

/-- The spanned-date list is sorted ascending. -/
theorem spannedDates_sorted (p : Position) : List.Sorted (· ≤ ·) (spannedDates p) :=
  List.sorted_insertionSort _ _

/-- The spanned-date list is duplicate-free. -/
theorem spannedDates_nodup (p : Position) : (spannedDates p).Nodup :=
  ((List.perm_insertionSort _ _).nodup_iff).mpr (List.nodup_dedup _)

/-- Every constituent order's trade date is among the spanned dates. -/
theorem mem_spannedDates (p : Position) (t : Trade) (ht : t ∈ p.trades) :
    t.tradeDate ∈ spannedDates p := by
  unfold spannedDates
  rw [(List.perm_insertionSort _ _).mem_iff, List.mem_dedup]
  exact List.mem_map_of_mem _ ht

/-- The single-date branch of the P&L pass in closed form. -/
theorem applyPositionPnL_single (m : List EnhancedDailyPnL) (p : Position)
    (hc : p.status = .closed) (hnz : p.realizedPnL ≠ 0) (d : Int)
    (hd : spannedDates p = [d]) :
    applyPositionPnL m p = m.map (fun r =>
      if r.date = d then addWinLoss { r with realizedPnL := r.realizedPnL + p.realizedPnL } p
      else r) := by
  unfold applyPositionPnL
  rw [if_pos ⟨hc, hnz⟩, hd]

/-- The multi-date branch of the P&L pass in closed form: every record
whose date is spanned gains exactly `realizedPnL / n`, and the win/loss
counters move only on the record whose date is the last spanned date. -/
theorem applyPositionPnL_multi (m : List EnhancedDailyPnL) (p : Position)
    (hc : p.status = .closed) (hnz : p.realizedPnL ≠ 0)
    (hlen : 1 < (spannedDates p).length) :
    applyPositionPnL m p = m.map (fun r =>
      if r.date ∈ spannedDates p then
        (if (spannedDates p).getLast? = some r.date then
          addWinLoss { r with realizedPnL :=
            r.realizedPnL + p.realizedPnL / ((spannedDates p).length : Rat) } p
        else { r with realizedPnL :=
          r.realizedPnL + p.realizedPnL / ((spannedDates p).length : Rat) })
      else r) := by
  obtain ⟨d1, l1, hds⟩ : ∃ d1 l1, spannedDates p = d1 :: l1 := by
    cases h : spannedDates p with
    | nil => rw [h] at hlen; simp at hlen
    | cons a l => exact ⟨a, l, rfl⟩
  obtain ⟨d2, l2, hds2⟩ : ∃ d2 l2, l1 = d2 :: l2 := by
    cases h : l1 with
    | nil =>
      rw [h] at hds
      rw [hds] at hlen
      simp at hlen
    | cons a l => exact ⟨a, l, rfl⟩
  rw [hds2] at hds
  have hnodup : (d1 :: d2 :: l2).Nodup := hds ▸ spannedDates_nodup p
  unfold applyPositionPnL
  rw [if_pos ⟨hc, hnz⟩, hds]
  show (List.enumFrom 0 (d1 :: d2 :: l2)).foldl (fun acc x =>
      acc.map (fun r =>
        if r.date = x.2 then
          let r1 := { r with realizedPnL :=
            r.realizedPnL + p.realizedPnL / (((d1 :: d2 :: l2).length : Nat) : Rat) }
          if x.1 = ((d1 :: d2 :: l2).length : Nat) - 1 then addWinLoss r1 p else r1
        else r)) m = _
  refine Eq.trans (foldl_map_fusion _ _ _) ?_
  refine List.map_congr_left fun r _ => ?_
  exact enumFrom_foldl_pointwise
    (fun r => addWinLoss { r with realizedPnL :=
      r.realizedPnL + p.realizedPnL / (((d1 :: d2 :: l2).length : Nat) : Rat) } p)
    (fun r => { r with realizedPnL :=
      r.realizedPnL + p.realizedPnL / (((d1 :: d2 :: l2).length : Nat) : Rat) })
    _ ((d1 :: d2 :: l2).length : Nat)
    (fun r => addWinLoss_date _ p) (fun r => rfl) (fun r x => rfl)
    (d1 :: d2 :: l2) 0 hnodup (by simp) r

/-- Claim C2: in `calculateDailyPnL`'s P&L pass, a closed position with
nonzero realized P&L spanning one trade date assigns its full realized P&L
and its win/loss classification to that date, and one spanning `n > 1`
distinct dates adds exactly `realizedPnL / n` to each of the `n` spanned
day records, incrementing the order- and execution-level win/loss counters
(`addWinLoss`) only on the last spanned date — which is the latest, the
spanned list being sorted; every constituent order's trade date is among
the spanned dates. -/
theorem c2_apportionment (m : List EnhancedDailyPnL) (p : Position)
    (hc : p.status = .closed) (hnz : p.realizedPnL ≠ 0) :
    (∀ d : Int, spannedDates p = [d] →
      applyPositionPnL m p = m.map (fun r =>
        if r.date = d then addWinLoss { r with realizedPnL := r.realizedPnL + p.realizedPnL } p
        else r)) ∧
    (1 < (spannedDates p).length →
      applyPositionPnL m p = m.map (fun r =>
        if r.date ∈ spannedDates p then
          (if (spannedDates p).getLast? = some r.date then
            addWinLoss { r with realizedPnL :=
              r.realizedPnL + p.realizedPnL / ((spannedDates p).length : Rat) } p
          else { r with realizedPnL :=
            r.realizedPnL + p.realizedPnL / ((spannedDates p).length : Rat) })
        else r)) ∧
    (∀ d ∈ spannedDates p, ∀ dl, (spannedDates p).getLast? = some dl → d ≤ dl) ∧
    (∀ t ∈ p.trades, t.tradeDate ∈ spannedDates p) :=
  ⟨fun d hd => applyPositionPnL_single m p hc hnz d hd,
   fun hlen => applyPositionPnL_multi m p hc hnz hlen,
   fun d hd dl hdl => sorted_le_getLast? (spannedDates_sorted p) d hd dl hdl,
   fun t ht => mem_spannedDates p t ht⟩

/-- Claim C2, witness: the concrete two-day position with realized P&L 100
adds exactly 50 to each of the two day records and counts as a win only on
the second (latest) date. -/
theorem c2_witness :
    spannedDates c2Position = [5, 6] ∧
    applyPositionPnL [emptyDaily 5, emptyDaily 6] c2Position =
      [{ emptyDaily 5 with realizedPnL := 50 },
       { emptyDaily 6 with realizedPnL := 50, winningOrders := 1, winningTrades := 2 }] := by
  have hds : spannedDates c2Position = [5, 6] := by
    norm_num [spannedDates, c2Position, mkTrade, List.insertionSort, List.orderedInsert,
      List.dedup]
  refine ⟨hds, ?_⟩
  have h := (c2_apportionment [emptyDaily 5, emptyDaily 6] c2Position rfl
      (by norm_num [c2Position])).2.1 (by rw [hds]; norm_num)
  rw [h, hds]
  norm_num [emptyDaily, addWinLoss, c2Position, mkTrade]

/-- A buy-side closing step commutes with erasing the position id. -/
theorem closeShortStep_erase (p : Position) (t : Trade) (q : Rat) :
    erasePositionId (closeShortStep p t q) = closeShortStep (erasePositionId p) t q := by
  by_cases h : p.remainingQuantity - q = 0 <;>
    simp [closeShortStep, erasePositionId, h]

/-- A sell-side closing step commutes with erasing the position id. -/
theorem closeLongStep_erase (p : Position) (t : Trade) (q : Rat) :
    erasePositionId (closeLongStep p t q) = closeLongStep (erasePositionId p) t q := by
  by_cases h : p.remainingQuantity - q = 0 <;>
    simp [closeLongStep, erasePositionId, h]

/-- Erasing the position id leaves the instrument key unchanged. -/
theorem erasePositionId_key (p : Position) :
    instrumentKeyOfPosition (erasePositionId p) = instrumentKeyOfPosition p := rfl

/-- Erasing the position id leaves the net quantity unchanged. -/
theorem erasePositionId_netQuantity (p : Position) :
    (erasePositionId p).netQuantity = p.netQuantity := rfl

/-- Erasing the position id leaves the remaining quantity unchanged. -/
theorem erasePositionId_remainingQuantity (p : Position) :
    (erasePositionId p).remainingQuantity = p.remainingQuantity := rfl

/-- The buy-side closing walk commutes with erasing position ids. -/
theorem closeShorts_erase (key : String) (t : Trade) :
    ∀ (ps : List Position) (rem : Rat),
      closeShorts key t rem (ps.map erasePositionId) =
        ((closeShorts key t rem ps).1.map erasePositionId,
         (closeShorts key t rem ps).2) := by
  intro ps
  induction ps with
  | nil => intro rem; rfl
  | cons p ps ih =>
    intro rem
    rw [List.map_cons]
    by_cases hguard : instrumentKeyOfPosition p = key ∧ p.netQuantity < 0 ∧
        0 < p.remainingQuantity ∧ 0 < rem
    · have heq1 : closeShorts key t rem (erasePositionId p :: ps.map erasePositionId) =
          (closeShortStep (erasePositionId p) t (min p.remainingQuantity rem) ::
            (closeShorts key t (rem - min p.remainingQuantity rem) (ps.map erasePositionId)).1,
           (closeShorts key t (rem - min p.remainingQuantity rem) (ps.map erasePositionId)).2) := by
        simp only [closeShorts, erasePositionId_key, erasePositionId_netQuantity,
          erasePositionId_remainingQuantity]
        rw [if_pos hguard]
      have heq2 : closeShorts key t rem (p :: ps) =
          (closeShortStep p t (min p.remainingQuantity rem) ::
            (closeShorts key t (rem - min p.remainingQuantity rem) ps).1,
           (closeShorts key t (rem - min p.remainingQuantity rem) ps).2) := by
        simp only [closeShorts]
        rw [if_pos hguard]
      rw [heq1, heq2, ih]
      simp [closeShortStep_erase]
    · have heq1 : closeShorts key t rem (erasePositionId p :: ps.map erasePositionId) =
          (erasePositionId p :: (closeShorts key t rem (ps.map erasePositionId)).1,
           (closeShorts key t rem (ps.map erasePositionId)).2) := by
        simp only [closeShorts, erasePositionId_key, erasePositionId_netQuantity,
          erasePositionId_remainingQuantity]
        rw [if_neg hguard]
      have heq2 : closeShorts key t rem (p :: ps) =
          (p :: (closeShorts key t rem ps).1, (closeShorts key t rem ps).2) := by
        simp only [closeShorts]
        rw [if_neg hguard]
      rw [heq1, heq2, ih]
      simp

/-- The sell-side closing walk commutes with erasing position ids. -/
theorem closeLongs_erase (key : String) (t : Trade) :
    ∀ (ps : List Position) (rem : Rat),
      closeLongs key t rem (ps.map erasePositionId) =
        ((closeLongs key t rem ps).1.map erasePositionId,
         (closeLongs key t rem ps).2) := by
  intro ps
  induction ps with
  | nil => intro rem; rfl
  | cons p ps ih =>
    intro rem
    rw [List.map_cons]
    by_cases hguard : instrumentKeyOfPosition p = key ∧ 0 < p.netQuantity ∧
        0 < p.remainingQuantity ∧ 0 < rem
    · have heq1 : closeLongs key t rem (erasePositionId p :: ps.map erasePositionId) =
          (closeLongStep (erasePositionId p) t (min p.remainingQuantity rem) ::
            (closeLongs key t (rem - min p.remainingQuantity rem) (ps.map erasePositionId)).1,
           (closeLongs key t (rem - min p.remainingQuantity rem) (ps.map erasePositionId)).2) := by
        simp only [closeLongs, erasePositionId_key, erasePositionId_netQuantity,
          erasePositionId_remainingQuantity]
        rw [if_pos hguard]
      have heq2 : closeLongs key t rem (p :: ps) =
          (closeLongStep p t (min p.remainingQuantity rem) ::
            (closeLongs key t (rem - min p.remainingQuantity rem) ps).1,
           (closeLongs key t (rem - min p.remainingQuantity rem) ps).2) := by
        simp only [closeLongs]
        rw [if_pos hguard]
      rw [heq1, heq2, ih]
      simp [closeLongStep_erase]
    · have heq1 : closeLongs key t rem (erasePositionId p :: ps.map erasePositionId) =
          (erasePositionId p :: (closeLongs key t rem (ps.map erasePositionId)).1,
           (closeLongs key t rem (ps.map erasePositionId)).2) := by
        simp only [closeLongs, erasePositionId_key, erasePositionId_netQuantity,
          erasePositionId_remainingQuantity]
        rw [if_neg hguard]
      have heq2 : closeLongs key t rem (p :: ps) =
          (p :: (closeLongs key t rem ps).1, (closeLongs key t rem ps).2) := by
        simp only [closeLongs]
        rw [if_neg hguard]
      rw [heq1, heq2, ih]
      simp

/-- Processing one order on two ledgers that agree up to position ids
yields ledgers that again agree up to position ids, for any two random
streams: the stream only ever enters the fresh position id. -/
theorem processTrade_erase (rnd1 rnd2 : Nat → String) (ps1 ps2 : List Position) (t : Trade)
    (h : ps1.map erasePositionId = ps2.map erasePositionId) :
    (processTrade rnd1 ps1 t).map erasePositionId =
      (processTrade rnd2 ps2 t).map erasePositionId := by
  have hlen : ps1.length = ps2.length := by
    have := congrArg List.length h
    simpa using this
  cases htt : t.tradeType with
  | buy =>
    have hco : closeShorts (instrumentKeyOfTrade t) t t.quantity (ps1.map erasePositionId) =
        closeShorts (instrumentKeyOfTrade t) t t.quantity (ps2.map erasePositionId) := by
      rw [h]
    rw [closeShorts_erase, closeShorts_erase] at hco
    have h1 := congrArg Prod.fst hco
    have h2 := congrArg Prod.snd hco
    simp only at h1 h2
    rw [processTrade_buy rnd1 ps1 t htt, processTrade_buy rnd2 ps2 t htt]
    by_cases hpos : 0 < (closeShorts (instrumentKeyOfTrade t) t t.quantity ps1).2
    · rw [if_pos hpos, if_pos (h2 ▸ hpos)]
      rw [List.map_append, List.map_append, h1, h2]
      simp [erasePositionId, newLongPosition]
    · rw [if_neg hpos, if_neg (h2 ▸ hpos)]
      exact h1
  | sell =>
    have hco : closeLongs (instrumentKeyOfTrade t) t t.quantity (ps1.map erasePositionId) =
        closeLongs (instrumentKeyOfTrade t) t t.quantity (ps2.map erasePositionId) := by
      rw [h]
    rw [closeLongs_erase, closeLongs_erase] at hco
    have h1 := congrArg Prod.fst hco
    have h2 := congrArg Prod.snd hco
    simp only at h1 h2
    rw [processTrade_sell rnd1 ps1 t htt, processTrade_sell rnd2 ps2 t htt]
    by_cases hpos : 0 < (closeLongs (instrumentKeyOfTrade t) t t.quantity ps1).2
    · rw [if_pos hpos, if_pos (h2 ▸ hpos)]
      rw [List.map_append, List.map_append, h1, h2]
      simp [erasePositionId, newShortPosition]
    · rw [if_neg hpos, if_neg (h2 ▸ hpos)]
      exact h1

/-- Folding the same orders over ledgers that agree up to position ids,
with any two random streams, keeps them agreeing up to position ids. -/
theorem processTrades_erase (rnd1 rnd2 : Nat → String) :
    ∀ (ts : List Trade) (ps1 ps2 : List Position),
      ps1.map erasePositionId = ps2.map erasePositionId →
      (processTrades rnd1 ps1 ts).map erasePositionId =
        (processTrades rnd2 ps2 ts).map erasePositionId := by
  intro ts
  induction ts with
  | nil => intro ps1 ps2 h; exact h
  | cons t ts ih =>
    intro ps1 ps2 h
    exact ih (processTrade rnd1 ps1 t) (processTrade rnd2 ps2 t)
      (processTrade_erase rnd1 rnd2 ps1 ps2 t h)

/-- The P&L pass reads a position only through its id-erased fields. -/
theorem applyPositionPnL_congr (m : List EnhancedDailyPnL) (p1 p2 : Position)
    (h : erasePositionId p1 = erasePositionId p2) :
    applyPositionPnL m p1 = applyPositionPnL m p2 := by
  have hst : p1.status = p2.status := by
    have h1 := congrArg Position.status h
    exact h1
  have hpnl : p1.realizedPnL = p2.realizedPnL := by
    have h1 := congrArg Position.realizedPnL h
    exact h1
  have htr : p1.trades = p2.trades := by
    have h1 := congrArg Position.trades h
    exact h1
  have haw : ∀ r, addWinLoss r p1 = addWinLoss r p2 := by
    intro r
    unfold addWinLoss
    simp only [hpnl, htr]
  unfold applyPositionPnL spannedDates
  simp only [hst, hpnl, htr, haw]

/-- The P&L pass over two position lists that agree up to position ids is
identical. -/
theorem pnlPass_congr (ps1 : List Position) :
    ∀ (ps2 : List Position) (m : List EnhancedDailyPnL),
      ps1.map erasePositionId = ps2.map erasePositionId →
      ps1.foldl applyPositionPnL m = ps2.foldl applyPositionPnL m := by
  induction ps1 with
  | nil =>
    intro ps2 m h
    cases ps2 with
    | nil => rfl
    | cons q qs => simp at h
  | cons p ps ih =>
    intro ps2 m h
    cases ps2 with
    | nil => simp at h
    | cons q qs =>
      simp only [List.map_cons, List.cons.injEq] at h
      rw [List.foldl_cons, List.foldl_cons, applyPositionPnL_congr m p q h.1]
      exact ih qs _ h.2

/-- The daily aggregation is independent of the random id stream. -/
theorem calculateDailyPnL_rnd_invariant (rnd1 rnd2 : Nat → String) (trades : List Trade) :
    calculateDailyPnL rnd1 trades = calculateDailyPnL rnd2 trades := by
  unfold calculateDailyPnL
  dsimp only
  rw [pnlPass_congr (calculatePositions rnd1 trades) (calculatePositions rnd2 trades)
    (chargesPass (initDaily trades) trades)
    (processTrades_erase rnd1 rnd2 (sortTrades trades) [] [] rfl)]

/-- Claim C4, counterexample: two runs of `calculatePositions` on the
identical one-trade input, with different draws of the random id suffix,
produce different ledgers — the `positionId` fields differ — so the output
is not byte-identical across runs. -/
theorem c4_counterexample :
    calculatePositions (fun _ => "a") [mkTrade "A" .buy 1 1 0 "O1"] ≠
      calculatePositions (fun _ => "b") [mkTrade "A" .buy 1 1 0 "O1"] ∧
    (calculatePositions (fun _ => "a") [mkTrade "A" .buy 1 1 0 "O1"]).map (·.positionId) ≠
      (calculatePositions (fun _ => "b") [mkTrade "A" .buy 1 1 0 "O1"]).map (·.positionId) := by
  have h1 : (calculatePositions (fun _ => "a") [mkTrade "A" .buy 1 1 0 "O1"]).map
      (·.positionId) = ["A_FUT_0_10_0_a"] := rfl
  have h2 : (calculatePositions (fun _ => "b") [mkTrade "A" .buy 1 1 0 "O1"]).map
      (·.positionId) = ["A_FUT_0_10_0_b"] := rfl
  constructor
  · intro h
    have := congrArg (List.map (·.positionId)) h
    rw [h1, h2] at this
    exact absurd this (by decide)
  · intro h
    rw [h1, h2] at h
    exact absurd h (by decide)

/-- Claim C4, amended: the pipeline is deterministic in everything except
the randomly suffixed `positionId`: for any two runs (random streams) on
the identical execution list, the Position ledgers agree field-for-field
after erasing `positionId`, and the DayRecord series are byte-identical. -/
theorem c4_determinism_amended (rnd1 rnd2 : Nat → String) (trades : List Trade) :
    (calculatePositions rnd1 trades).map erasePositionId =
      (calculatePositions rnd2 trades).map erasePositionId ∧
    calculateDailyPnL rnd1 trades = calculateDailyPnL rnd2 trades :=
  ⟨processTrades_erase rnd1 rnd2 (sortTrades trades) [] [] rfl,
   calculateDailyPnL_rnd_invariant rnd1 rnd2 trades⟩

end TradeJournal
